import Mathlib

/-!
Verification of the range-tracking engine of the Mask editor extension
(`src/extension.ts`).  The data model and the operations below are a
shallow embedding of that file: positions and ranges mirror the host
editor's `Position`/`Range` values, the per-document replacement-text
map mirrors the `customReplacements` string-keyed map (keyed by the
range's coordinate rendering concatenated with the document key; for a
fixed document this is an association keyed by the range), and each
function mirrors the control flow of the correspondingly named function
of the source.  Filesystem reads (file metadata, line counts) are passed
in as explicit parameters, since they are inputs the source obtains from
the environment.
-/

set_option maxHeartbeats 1000000

namespace Mask

/-- A zero-based line/character position (the editor API's `Position`). -/
structure Position where
  line : Nat
  character : Nat
deriving DecidableEq

/-- `Position.isBefore`: strict lexicographic comparison, line first. -/
def Position.isBefore (a b : Position) : Prop :=
  a.line < b.line ∨ (a.line = b.line ∧ a.character < b.character)

/-- `Position.isAfter`: strict lexicographic comparison, line first. -/
def Position.isAfter (a b : Position) : Prop :=
  a.line > b.line ∨ (a.line = b.line ∧ a.character > b.character)

instance (a b : Position) : Decidable (a.isBefore b) := by
  unfold Position.isBefore; exact inferInstance

instance (a b : Position) : Decidable (a.isAfter b) := by
  unfold Position.isAfter; exact inferInstance

/-- Binary `Position.Max` of the editor API: the later of two positions
(the first argument on a tie). -/
def Position.max (a b : Position) : Position := if b.isAfter a then b else a

/-- Binary `Position.Min` of the editor API: the earlier of two positions
(the first argument on a tie). -/
def Position.min (a b : Position) : Position := if b.isBefore a then b else a

/-- A half-open text span `[start, end)` (the editor API's `Range`). -/
structure Range where
  start : Position
  «end» : Position
deriving DecidableEq

/-- `Range.isEmpty` (also `Selection.isEmpty`): start coincides with end. -/
def Range.isEmpty (r : Range) : Prop := r.start = r.«end»

instance (r : Range) : Decidable r.isEmpty := by
  unfold Range.isEmpty; exact inferInstance

/-- `range.intersection(other)` of the editor API: the overlapping
sub-range, or `none` when the intersection would be inverted.  When the
two ranges merely touch, the result is `some` empty range (which is a
truthy object in the source's JavaScript), not `none`. -/
def Range.intersection (r other : Range) : Option Range :=
  let s := Position.max other.start r.start
  let e := Position.min other.«end» r.«end»
  if s.isAfter e then none else some ⟨s, e⟩

/-- Start position `≤` end position: the well-formedness invariant every
range built by the source satisfies (selections are normalised by the
editor, and every range the code constructs keeps its endpoints in
order). -/
def PosLe (a b : Position) : Prop :=
  a.line < b.line ∨ (a.line = b.line ∧ a.character ≤ b.character)

/-- A well-formed range: `start ≤ end`. -/
def Range.wf (r : Range) : Prop := PosLe r.start r.«end»

instance (a b : Position) : Decidable (PosLe a b) := by
  unfold PosLe; exact inferInstance

instance (r : Range) : Decidable r.wf := by
  unfold Range.wf; exact inferInstance

/-- The sort comparator of `mergeOverlappingRanges`: order by start line,
then start character (`(a, b) => a.start.line - b.start.line ||
a.start.character - b.start.character`), as a `≤` relation. -/
def rangeLe (a b : Range) : Prop := PosLe a.start b.start

instance : DecidableRel rangeLe := fun a b => by
  unfold rangeLe PosLe; exact inferInstance

instance : IsTotal Range rangeLe := ⟨by intro a b; unfold rangeLe PosLe; omega⟩

instance : IsTrans Range rangeLe := ⟨by intro a b c; unfold rangeLe PosLe; omega⟩

/-- The in-place stable sort of `mergeOverlappingRanges` (JavaScript's
`Array.prototype.sort` is stable; insertion sort is its stable pure
counterpart). -/
def sortRanges (rs : List Range) : List Range := List.insertionSort rangeLe rs

/-- The adjacency-or-overlap test of `mergeOverlappingRanges`: same line
with touching/overlapping characters, or the next range starting at
column 0 of the line after the current range's end line, or a multi-line
overlap.  The test reads only `current.end` and `next.start`. -/
def overlapsOrAdjacent (current next : Range) : Prop :=
  (current.«end».line = next.start.line ∧ current.«end».character ≥ next.start.character) ∨
  (current.«end».line + 1 = next.start.line ∧ next.start.character = 0) ∨
  (current.«end».line > next.start.line)

instance (a b : Range) : Decidable (overlapsOrAdjacent a b) := by
  unfold overlapsOrAdjacent; exact inferInstance

/-- The `customReplacements` map restricted to one document: an
association of ranges (the range part of the source's
`range.toString() + fileUri` key) to replacement texts. -/
abbrev Repl := List (Range × String)

/-- `customReplacements.get`. -/
def Repl.get (m : Repl) (k : Range) : Option String :=
  (m.find? fun p => decide (p.1 = k)).map fun p => p.2

/-- `customReplacements.delete`. -/
def Repl.delete (m : Repl) (k : Range) : Repl :=
  m.filter fun p => decide (p.1 ≠ k)

/-- `customReplacements.set`: overwrite any previous entry for the key. -/
def Repl.set (m : Repl) (k : Range) (v : String) : Repl :=
  (k, v) :: m.delete k

/-- JavaScript's `x || '[***]'` on an optional string: the default is
used when the lookup missed or produced the (falsy) empty string. -/
def orDefault (s : Option String) : String :=
  match s with
  | none => "[***]"
  | some t => if t = "" then "[***]" else t

/-- `customReplacements.get(key) || '[***]'`. -/
def Repl.getD (m : Repl) (k : Range) : String := orDefault (m.get k)

/-- The fold of `mergeOverlappingRanges` over the sorted tail: `current`
and its replacement text are the accumulator; overlapping-or-adjacent
neighbours are folded into `current` (extending its end, deleting both
old replacement entries and recording the merged one), others flush
`current` into the output. -/
def mergeGo (repl : Repl) (curText : String) (current : Range) :
    List Range → List Range × Repl
  | [] => ([current], repl)
  | next :: rest =>
    let nextText := repl.getD next
    if overlapsOrAdjacent current next then
      let newEnd := if current.«end».isAfter next.«end» then current.«end» else next.«end»
      let merged : Range := ⟨current.start, newEnd⟩
      let repl1 := (repl.delete current).delete next
      -- the source's differing-texts branch assigns the template literal
      -- of the current text, so both branches keep the current text
      let mergedText := if curText ≠ nextText then curText else curText
      let repl2 := repl1.set merged mergedText
      mergeGo repl2 mergedText merged rest
    else
      let out := mergeGo repl nextText next rest
      (current :: out.1, out.2)

/-- `mergeOverlappingRanges`: sort by start position, then greedily fold
adjacent-or-overlapping neighbours.  Also returns the updated
replacement map (the source mutates the shared `customReplacements`). -/
def mergeOverlappingRanges (ranges : List Range) (repl : Repl) : List Range × Repl :=
  if ranges.length ≤ 1 then (ranges, repl)
  else
    match sortRanges ranges with
    | [] => (ranges, repl)
    | c :: rest => mergeGo repl (repl.getD c) c rest

/-- Worker of `uniqueRanges`: keep a range only when it has not been
seen earlier in the array. -/
def uniqueGo (seen : List Range) : List Range → List Range
  | [] => []
  | r :: rest => if r ∈ seen then uniqueGo seen rest else r :: uniqueGo (r :: seen) rest

/-- The exact-duplicate removal of `saveMasksToFile`: `filter` keeping
an element exactly when its index equals the `findIndex` of the first
coordinate-equal range, i.e. keeping each range's first occurrence. -/
def uniqueRanges (rs : List Range) : List Range := uniqueGo [] rs

/-- One document's in-memory state: its entry of `maskedRanges` plus its
slice of `customReplacements`. -/
structure DocState where
  ranges : List Range
  repl : Repl
deriving DecidableEq

/-- The empty per-document store. -/
def emptyDoc : DocState := ⟨[], []⟩

/-- The in-memory effect of `saveMasksToFile` for one document: skip if
the range list is empty; else de-duplicate and merge — the merge pass's
replacement-map mutations happen unconditionally, because the merge is
called before the metadata check — and replace the stored range list
with the merged one only when the merged list is non-empty AND the
backing file's metadata is computable: the source's
`maskedRanges.set(fileUri, mergedRanges)` sits inside the
`if (metadata)` guard that also protects the storage record.
`hasMeta` is `calculateFileMetadata`'s verdict for this document
(`false` = it returned `null`, e.g. an untitled document or a file
deleted mid-session). -/
def saveNormalize (hasMeta : Bool) (st : DocState) : DocState :=
  if st.ranges.isEmpty then st
  else
    let out := mergeOverlappingRanges (uniqueRanges st.ranges) st.repl
    if out.1.isEmpty then ⟨st.ranges, out.2⟩
    else if hasMeta then ⟨out.1, out.2⟩
    else ⟨st.ranges, out.2⟩

/-- The state mutation of the `mask.markMasked` handler once a non-empty
selection and a replacement text are in hand: push the selection's
range, record its text, merge immediately. -/
def markMem (st : DocState) (sel : Range) (text : String) : DocState :=
  let ranges := st.ranges ++ [sel]
  let repl := st.repl.set sel text
  let out := mergeOverlappingRanges ranges repl
  ⟨out.1, out.2⟩

/-- The `mask.markMasked` command on one document: no active editor
(`none`) or an empty selection is a bail-out; otherwise the range is
added and the state committed through the save pass.  The
`replacementText` argument is the text the handler resolved (last-used
value or prompt answer); a cancelled prompt also bails out before any
state change and is subsumed by the `none` case. -/
def markMasked (hasMeta : Bool) (selection : Option Range) (replacementText : String)
    (st : DocState) : DocState :=
  match selection with
  | none => st
  | some sel =>
    if sel.isEmpty then st
    else saveNormalize hasMeta (markMem st sel replacementText)

/-- The per-range loop of the `mask.unmarkMasked` handler: a range with
no intersection with the selection is kept; an intersecting range is
split into the part before `selection.start` and the part after
`selection.end` (each kept only when non-empty, inheriting the original
replacement text), and the intersecting part is dropped. -/
def unmarkGo (sel : Range) : List Range → Repl → List Range × Repl
  | [], repl => ([], repl)
  | r :: rest, repl =>
    if (r.intersection sel).isSome then
      let origText := repl.getD r
      let repl1 := repl.delete r
      let before : Range := ⟨r.start, sel.start⟩
      let p1 := if r.start.isBefore sel.start then ([before], repl1.set before origText)
                else ([], repl1)
      let after : Range := ⟨sel.«end», r.«end»⟩
      let p2 := if sel.«end».isBefore r.«end» then (p1.1 ++ [after], p1.2.set after origText)
                else p1
      let out := unmarkGo sel rest p2.2
      (p2.1 ++ out.1, out.2)
    else
      let out := unmarkGo sel rest repl
      (r :: out.1, out.2)

/-- The state mutation of `mask.unmarkMasked` before its save call. -/
def unmarkMem (st : DocState) (sel : Range) : DocState :=
  let out := unmarkGo sel st.ranges st.repl
  ⟨out.1, out.2⟩

/-- The `mask.unmarkMasked` command on one document: no active editor is
a bail-out; otherwise every stored range intersecting the selection is
split/removed and the state committed through the save pass.  Unlike
marking, the handler has no empty-selection guard. -/
def unmarkMasked (hasMeta : Bool) (selection : Option Range) (st : DocState) : DocState :=
  match selection with
  | none => st
  | some sel => saveNormalize hasMeta (unmarkMem st sel)

/-- A user-level Range Store operation on one document. -/
inductive MaskOp where
  | mark (sel : Range) (text : String)
  | unmark (sel : Range)

/-- Run one operation (with an active editor holding the selection);
`hasMeta` is whether the document file's metadata is computable at the
completing save. -/
def applyOp (hasMeta : Bool) (st : DocState) : MaskOp → DocState
  | .mark sel text => markMasked hasMeta (some sel) text st
  | .unmark sel => unmarkMasked hasMeta (some sel) st

/-- Run a sequence of operations under a stable metadata environment. -/
def applyOps (hasMeta : Bool) (st : DocState) (ops : List MaskOp) : DocState :=
  ops.foldl (applyOp hasMeta) st

/-- Well-formedness of an operation's selection (editor selections are
always normalised, `start ≤ end`). -/
def opWf : MaskOp → Prop
  | .mark sel _ => sel.wf
  | .unmark sel => sel.wf

instance (op : MaskOp) : Decidable (opWf op) := by
  cases op <;> (unfold opWf; exact inferInstance)

/-- `validateAndCleanMaskRanges` for a live `file:`-scheme document whose
last line index is `maxLine`: drop (and forget the replacement text of)
every range whose start or end line exceeds `maxLine`. -/
def validateAndCleanMaskRanges (maxLine : Nat) : List Range → Repl → List Range × Repl
  | [], repl => ([], repl)
  | r :: rest, repl =>
    if r.start.line ≤ maxLine ∧ r.«end».line ≤ maxLine then
      let out := validateAndCleanMaskRanges maxLine rest repl
      (r :: out.1, out.2)
    else
      validateAndCleanMaskRanges maxLine rest (repl.delete r)

/-- The file metadata `calculateFileMetadata` computes for an existing,
readable file.  Its `lineCount` is `content.split('\n').length`, hence
always at least 1, and `md5Hash` is a hex digest, hence never empty. -/
structure FileMetadata where
  filename : String
  fileSize : Nat
  lineCount : Nat
  md5Hash : String
deriving DecidableEq

/-- A persisted document record (`MaskData`): the saved ranges plus
optional identity metadata (older records lack it). -/
structure MaskData where
  ranges : List Range
  filename : Option String := none
  fileSize : Option Nat := none
  lineCount : Option Nat := none
  md5Hash : Option String := none
deriving DecidableEq

/-- `findMatchingFileInStorage`: exact key match first; otherwise scan
the storage entries in order for one whose recorded size, line count and
digest all equal the live document's metadata, skipping entries whose
`fileSize` is `undefined` or whose `lineCount`/`md5Hash` is falsy.  The
live metadata (`calculateFileMetadata` of the current file) is passed in
as an `Option`, `none` when the file does not exist or is unreadable. -/
def findMatchingFileInStorage (currentFileUri : String)
    (currentMetadata : Option FileMetadata)
    (storage : List (String × MaskData)) : Option String :=
  if (storage.lookup currentFileUri).isSome then some currentFileUri
  else
    match currentMetadata with
    | none => none
    | some m =>
      (storage.find? fun p =>
        if p.2.fileSize = none ∨ p.2.lineCount = none ∨ p.2.lineCount = some 0
            ∨ p.2.md5Hash = none ∨ p.2.md5Hash = some "" then false
        else if p.2.fileSize ≠ some m.fileSize ∨ p.2.lineCount ≠ some m.lineCount then false
        else if p.2.md5Hash ≠ some m.md5Hash then false
        else true).map Prod.fst

/-- Modelled from the spec's words (§4.3, claim C8), for comparison with
`findMatchingFileInStorage`: return the live key on an exact match;
otherwise the first stored key whose recorded `byteSize`, `lineCount`
and `contentDigest` all equal the live document's fingerprint (which
also skips every record lacking any fingerprint field); `none` when
nothing matches. -/
def specResolve (currentFileUri : String) (m : FileMetadata)
    (storage : List (String × MaskData)) : Option String :=
  if (storage.lookup currentFileUri).isSome then some currentFileUri
  else
    (storage.find? fun p =>
      decide (p.2.fileSize = some m.fileSize ∧ p.2.lineCount = some m.lineCount ∧
        p.2.md5Hash = some m.md5Hash)).map Prod.fst

/-- The storage contents `saveMasksToFile` writes: one record per
in-memory document, skipping documents with an empty range list, and
skipping (after de-duplication and merging) documents whose file
metadata cannot be computed (`calculateFileMetadata` returned `null`);
`metadata` is that filesystem oracle. -/
def saveMasksToFile (metadata : String → Option FileMetadata) :
    List (String × DocState) → List (String × MaskData)
  | [] => []
  | (uri, st) :: rest =>
    let tail := saveMasksToFile metadata rest
    if st.ranges.isEmpty then tail
    else
      let out := mergeOverlappingRanges (uniqueRanges st.ranges) st.repl
      if out.1.isEmpty then tail
      else
        match metadata uri with
        | some md =>
          (uri, { ranges := out.1, filename := some md.filename,
                  fileSize := some md.fileSize, lineCount := some md.lineCount,
                  md5Hash := some md.md5Hash }) :: tail
        | none => tail

/-- The per-record body of `loadMasksFromFile` for a matched live
`file:`-scheme document with last line index `maxLine`: skip empty
records, rebuild the ranges, validate them against the live line count,
and keep the document in `maskedRanges` only when some range survived. -/
def loadDocEntry (maxLine : Nat) (stored : List Range) (repl : Repl) :
    Option (List Range) × Repl :=
  if stored.isEmpty then (none, repl)
  else
    let out := validateAndCleanMaskRanges maxLine stored repl
    (if out.1.isEmpty then none else some out.1, out.2)

/-- The in-memory map after loading a single stored record for document
`uri` (used to express that a fully-dropped record is pruned by the
subsequent save). -/
def reloadState (uri : String) (maxLine : Nat) (stored : List Range) (repl : Repl) :
    List (String × DocState) :=
  match loadDocEntry maxLine stored repl with
  | (none, _) => []
  | (some v, repl') => [(uri, ⟨v, repl'⟩)]

/-- Save for one document followed by load for the same, unmodified live
document (last line index `maxLine`): the record written is the
de-duplicated merge of the store (the in-memory replacement map is
untouched by an identity merge and is not persisted nor cleared by
load), load finds it under the exact key, rebuilds and validates the
ranges, and keeps the document only when some range survived (an absent
document is represented by the empty range list). -/
def saveThenLoadDoc (maxLine : Nat) (st : DocState) : DocState :=
  if st.ranges.isEmpty then ⟨[], st.repl⟩
  else
    let out := mergeOverlappingRanges (uniqueRanges st.ranges) st.repl
    if out.1.isEmpty then ⟨[], out.2⟩
    else
      let v := validateAndCleanMaskRanges maxLine out.1 out.2
      ⟨v.1, v.2⟩

/-- `document.getText(range)` over a document given as its list of
lines (the text joined by `"\n"`). -/
def getText (lines : List String) (r : Range) : String :=
  if r.start.line = r.«end».line then
    ((lines.getD r.start.line "").take r.«end».character).drop r.start.character
  else
    (lines.getD r.start.line "").drop r.start.character ++ "\n" ++
      (((lines.drop (r.start.line + 1)).take (r.«end».line - r.start.line - 1)).foldr
        (fun l acc => l ++ "\n" ++ acc)
        ((lines.getD r.«end».line "").take r.«end».character))

/-- The overridden `editor.action.clipboardCopyWithSyntaxHighlightingAction`
handler: compute the selected text; when some stored range intersects
the selection the substitution loop of the source is commented out, so
the text written to the clipboard is the selected text unchanged; with
no intersection the selected text is written as well. -/
def clipboardCopyWithSyntaxHighlightingAction (lines : List String) (selection : Range)
    (ranges : List Range) : String :=
  let selectedText := getText lines selection
  let intersectingRanges := ranges.filter fun r => (r.intersection selection).isSome
  if intersectingRanges.length > 0 then
    let finalText := selectedText
    finalText
  else selectedText

/-- The overridden `editor.action.clipboardCopyAction` handler: same as
above, except that with no intersection it delegates to the (also
overridden) copy-with-highlighting command. -/
def clipboardCopyAction (lines : List String) (selection : Range)
    (ranges : List Range) : String :=
  let selectedText := getText lines selection
  let intersectingRanges := ranges.filter fun r => (r.intersection selection).isSome
  if intersectingRanges.length > 0 then
    let finalText := selectedText
    finalText
  else clipboardCopyWithSyntaxHighlightingAction lines selection ranges

/-! ### Order and adjacency lemmas -/

theorem rangeLe_trans {a b c : Range} (h1 : rangeLe a b) (h2 : rangeLe b c) : rangeLe a c := by
  unfold rangeLe PosLe at *; omega

theorem adjacent_congr_start {a b c : Range} (h : b.start = c.start) :
    overlapsOrAdjacent a b ↔ overlapsOrAdjacent a c := by
  unfold overlapsOrAdjacent; rw [h]

/-- The key geometric step: if `a` does not reach `b`, `b` is well formed
and does not reach `c`, and `c` starts no earlier than `b`, then `a`
does not reach `c` either (the only position `a` could reach beyond
`b.start` is the start of the line after `a.end`, and a `b` lying in
between would itself reach it). -/
theorem sep_extend {a b c : Range} (hab : ¬ overlapsOrAdjacent a b) (hwfb : b.wf)
    (hbc : ¬ overlapsOrAdjacent b c) (hle : rangeLe b c) : ¬ overlapsOrAdjacent a c := by
  unfold overlapsOrAdjacent Range.wf rangeLe PosLe at *; omega

theorem pairwise_rangeLe_of_chain {l : List Range} (h : List.Chain' rangeLe l) :
    List.Pairwise rangeLe l :=
  List.chain'_iff_pairwise.mp h

/-- A chain of non-adjacent, well-formed, start-sorted ranges is pairwise
non-adjacent. -/
theorem pairwise_sep_of_chain :
    ∀ {l : List Range}, (∀ r ∈ l, r.wf) →
      List.Chain' (fun a b => ¬ overlapsOrAdjacent a b) l →
      List.Chain' rangeLe l →
      List.Pairwise (fun a b => ¬ overlapsOrAdjacent a b) l
  | [], _, _, _ => List.Pairwise.nil
  | [_], _, _, _ => List.pairwise_singleton _ _
  | a :: b :: m, hwf, hch, hle => by
    have hple : List.Pairwise rangeLe (a :: b :: m) := pairwise_rangeLe_of_chain hle
    rw [List.chain'_cons] at hch hle
    have ih : List.Pairwise (fun a b => ¬ overlapsOrAdjacent a b) (b :: m) :=
      pairwise_sep_of_chain (fun r hr => hwf r (List.mem_cons_of_mem a hr)) hch.2 hle.2
    refine List.pairwise_cons.mpr ⟨?_, ih⟩
    intro c hc
    rcases List.mem_cons.mp hc with rfl | hc
    · exact hch.1
    · have hbc : ¬ overlapsOrAdjacent b c := (List.pairwise_cons.mp ih).1 c hc
      have hblec : rangeLe b c :=
        (List.pairwise_cons.mp (List.pairwise_cons.mp hple).2).1 c hc
      exact sep_extend hch.1 (hwf b (by simp)) hbc hblec

/-! ### The merge fold -/

/-- Structural description of the merge fold's output: it is non-empty,
its head starts where `current` starts, its elements are well formed,
and it is a start-sorted chain of pairwise non-reaching neighbours. -/
theorem mergeGo_spec :
    ∀ (rest : List Range) (current : Range) (curText : String) (repl : Repl),
      current.wf → (∀ r ∈ rest, r.wf) →
      List.Chain' rangeLe (current :: rest) →
      ∃ hd tl, (mergeGo repl curText current rest).1 = hd :: tl ∧
        hd.start = current.start ∧
        (∀ r ∈ (mergeGo repl curText current rest).1, r.wf) ∧
        List.Chain' (fun a b => ¬ overlapsOrAdjacent a b) (mergeGo repl curText current rest).1 ∧
        List.Chain' rangeLe (mergeGo repl curText current rest).1
  | [], current, curText, repl, hwfc, _, _ => by
    refine ⟨current, [], rfl, rfl, ?_, ?_, ?_⟩ <;> simp [mergeGo, hwfc]
  | next :: rest', current, curText, repl, hwfc, hwf, hch => by
    rw [List.chain'_cons] at hch
    have hwfn : next.wf := hwf next (by simp)
    have hwfr : ∀ r ∈ rest', r.wf := fun r hr => hwf r (List.mem_cons_of_mem next hr)
    by_cases h : overlapsOrAdjacent current next
    · -- the two ranges fold into one
      have hmerged : (⟨current.start,
          if current.«end».isAfter next.«end» then current.«end» else next.«end»⟩ : Range).wf := by
        by_cases hA : current.«end».isAfter next.«end»
        · rw [if_pos hA]; exact hwfc
        · rw [if_neg hA]
          show PosLe current.start next.«end»
          unfold Range.wf at hwfc
          unfold Position.isAfter at hA
          unfold PosLe at *
          omega
      have hchm : List.Chain' rangeLe
          ((⟨current.start,
            if current.«end».isAfter next.«end» then current.«end» else next.«end»⟩ : Range) :: rest') := by
        cases rest' with
        | nil => simp
        | cons c m =>
          rw [List.chain'_cons]
          refine ⟨?_, (List.chain'_cons.mp hch.2).2⟩
          have h1 : rangeLe current next := hch.1
          have h2 : rangeLe next c := (List.chain'_cons.mp hch.2).1
          show PosLe current.start c.start
          unfold rangeLe PosLe at *
          omega
      obtain ⟨hd, tl, h1, h2, h3, h4, h5⟩ :=
        mergeGo_spec rest'
          (⟨current.start,
            if current.«end».isAfter next.«end» then current.«end» else next.«end»⟩ : Range)
          (if curText ≠ repl.getD next then curText else curText)
          (((repl.delete current).delete next).set
            (⟨current.start,
              if current.«end».isAfter next.«end» then current.«end» else next.«end»⟩ : Range)
            (if curText ≠ repl.getD next then curText else curText))
          hmerged hwfr hchm
      have heq : mergeGo repl curText current (next :: rest') =
          mergeGo
            (((repl.delete current).delete next).set
              (⟨current.start,
                if current.«end».isAfter next.«end» then current.«end» else next.«end»⟩ : Range)
              (if curText ≠ repl.getD next then curText else curText))
            (if curText ≠ repl.getD next then curText else curText)
            (⟨current.start,
              if current.«end».isAfter next.«end» then current.«end» else next.«end»⟩ : Range)
            rest' := by
        simp only [mergeGo, if_pos h]
      rw [heq]
      exact ⟨hd, tl, h1, h2, h3, h4, h5⟩
    · -- `current` is flushed and the fold restarts from `next`
      obtain ⟨hd, tl, h1, h2, h3, h4, h5⟩ :=
        mergeGo_spec rest' next (repl.getD next) repl hwfn hwfr hch.2
      have heq : mergeGo repl curText current (next :: rest') =
          (current :: (mergeGo repl (repl.getD next) next rest').1,
            (mergeGo repl (repl.getD next) next rest').2) := by
        simp only [mergeGo, if_neg h]
      refine ⟨current, hd :: tl, ?_, rfl, ?_, ?_, ?_⟩
      · rw [heq]; simp [h1]
      · rw [heq]
        intro r hr
        rcases List.mem_cons.mp (by simpa using hr) with rfl | hr2
        · exact hwfc
        · exact h3 r hr2
      · rw [heq]
        show List.Chain' _ (current :: (mergeGo repl (repl.getD next) next rest').1)
        rw [h1, List.chain'_cons]
        refine ⟨fun hx => h ((adjacent_congr_start h2).mp hx), ?_⟩
        rw [← h1]; exact h4
      · rw [heq]
        show List.Chain' _ (current :: (mergeGo repl (repl.getD next) next rest').1)
        rw [h1, List.chain'_cons]
        refine ⟨?_, ?_⟩
        · have h6 : rangeLe current next := hch.1
          show PosLe current.start hd.start
          rw [h2]
          exact h6
        · rw [← h1]; exact h5

theorem length_le_one_pairwise {l : List Range} {R : Range → Range → Prop}
    (h : l.length ≤ 1) : List.Pairwise R l := by
  match l with
  | [] => exact .nil
  | [a] => exact List.pairwise_singleton _ _
  | a :: b :: m => simp at h

/-- After a merge pass the stored set is pairwise non-adjacent and
non-overlapping, and all its ranges stay well formed. -/
theorem merge_pairwise_separated (ranges : List Range) (repl : Repl)
    (hwf : ∀ r ∈ ranges, r.wf) :
    List.Pairwise (fun a b => ¬ overlapsOrAdjacent a b) (mergeOverlappingRanges ranges repl).1 ∧
    (∀ r ∈ (mergeOverlappingRanges ranges repl).1, r.wf) := by
  unfold mergeOverlappingRanges
  by_cases hlen : ranges.length ≤ 1
  · rw [if_pos hlen]
    exact ⟨length_le_one_pairwise hlen, hwf⟩
  · rw [if_neg hlen]
    have hperm : List.Perm (sortRanges ranges) ranges := List.perm_insertionSort rangeLe ranges
    have hwfs : ∀ r ∈ sortRanges ranges, r.wf := fun r hr => hwf r (hperm.mem_iff.mp hr)
    have hsorted : List.Pairwise rangeLe (sortRanges ranges) :=
      List.sorted_insertionSort rangeLe ranges
    cases hs : sortRanges ranges with
    | nil =>
      rw [hs] at hperm
      have hr0 : ranges = [] := hperm.symm.eq_nil
      subst hr0
      exact ⟨List.Pairwise.nil, by simp⟩
    | cons c rest =>
      rw [hs] at hwfs hsorted
      obtain ⟨hd, tl, h1, h2, h3, h4, h5⟩ :=
        mergeGo_spec rest c (repl.getD c) repl (hwfs c (by simp))
          (fun r hr => hwfs r (List.mem_cons_of_mem c hr)) hsorted.chain'
      exact ⟨pairwise_sep_of_chain h3 h4 h5, h3⟩

/-! ### Preservation of well-formedness through the operations -/

theorem mem_uniqueGo : ∀ {seen l : List Range} {r : Range}, r ∈ uniqueGo seen l → r ∈ l
  | _, [], _, h => by simp [uniqueGo] at h
  | seen, a :: l, r, h => by
    unfold uniqueGo at h
    by_cases ha : a ∈ seen
    · rw [if_pos ha] at h
      exact List.mem_cons_of_mem a (mem_uniqueGo h)
    · rw [if_neg ha] at h
      rcases List.mem_cons.mp h with rfl | h2
      · exact List.mem_cons_self _ _
      · exact List.mem_cons_of_mem a (mem_uniqueGo h2)

theorem mem_uniqueRanges {l : List Range} {r : Range} (h : r ∈ uniqueRanges l) : r ∈ l :=
  mem_uniqueGo h

theorem uniqueRanges_ne_nil {a : Range} {l : List Range} : uniqueRanges (a :: l) ≠ [] := by
  simp [uniqueRanges, uniqueGo]

theorem isBefore_posLe {a b : Position} (h : a.isBefore b) : PosLe a b := by
  unfold Position.isBefore at h; unfold PosLe; omega

/-- The ranges one step of the unmark loop produces from an intersecting
stored range: the part before the selection and the part after it, each
kept only when non-empty. -/
def pieces (a sel : Range) : List Range :=
  (if a.start.isBefore sel.start then [(⟨a.start, sel.start⟩ : Range)] else []) ++
  (if sel.«end».isBefore a.«end» then [(⟨sel.«end», a.«end»⟩ : Range)] else [])

/-- The replacement-map update one step of the unmark loop performs for
an intersecting stored range. -/
def pieceRepl (repl : Repl) (a sel : Range) : Repl :=
  let origText := repl.getD a
  let repl1 := repl.delete a
  let repl2 := if a.start.isBefore sel.start
    then repl1.set ⟨a.start, sel.start⟩ origText else repl1
  if sel.«end».isBefore a.«end» then repl2.set ⟨sel.«end», a.«end»⟩ origText else repl2

theorem unmarkGo_cons_some {sel a : Range} {l : List Range} {repl : Repl}
    (hi : (a.intersection sel).isSome) :
    unmarkGo sel (a :: l) repl =
      (pieces a sel ++ (unmarkGo sel l (pieceRepl repl a sel)).1,
        (unmarkGo sel l (pieceRepl repl a sel)).2) := by
  simp only [unmarkGo]
  rw [if_pos hi]
  by_cases hb : a.start.isBefore sel.start <;> by_cases ha : sel.«end».isBefore a.«end» <;>
    simp [pieces, pieceRepl, hb, ha]

theorem unmarkGo_cons_none {sel a : Range} {l : List Range} {repl : Repl}
    (hi : ¬ (a.intersection sel).isSome) :
    unmarkGo sel (a :: l) repl =
      (a :: (unmarkGo sel l repl).1, (unmarkGo sel l repl).2) := by
  simp only [unmarkGo]
  rw [if_neg hi]

theorem pieces_wf {a sel : Range} : ∀ r ∈ pieces a sel, r.wf := by
  intro r hr
  unfold pieces at hr
  by_cases hb : a.start.isBefore sel.start <;> by_cases ha : sel.«end».isBefore a.«end» <;>
    simp [hb, ha] at hr
  · rcases hr with rfl | rfl
    · exact isBefore_posLe hb
    · exact isBefore_posLe ha
  · rw [hr]; exact isBefore_posLe hb
  · rw [hr]; exact isBefore_posLe ha

theorem unmarkGo_wf (sel : Range) :
    ∀ (l : List Range) (repl : Repl), (∀ r ∈ l, r.wf) →
      ∀ r ∈ (unmarkGo sel l repl).1, r.wf
  | [], repl, _, r, hr => by simp [unmarkGo] at hr
  | a :: l, repl, hwf, r, hr => by
    have hwfa : a.wf := hwf a (by simp)
    have hwfl : ∀ x ∈ l, x.wf := fun x hx => hwf x (List.mem_cons_of_mem a hx)
    by_cases hi : (a.intersection sel).isSome
    · rw [unmarkGo_cons_some hi] at hr
      rcases List.mem_append.mp hr with hp | hrec
      · exact pieces_wf r hp
      · exact unmarkGo_wf sel l _ hwfl r hrec
    · rw [unmarkGo_cons_none hi] at hr
      rcases List.mem_cons.mp hr with rfl | hr2
      · exact hwfa
      · exact unmarkGo_wf sel l _ hwfl r hr2

theorem mergeGo_ne_nil (rest : List Range) (current : Range) (curText : String) (repl : Repl) :
    (mergeGo repl curText current rest).1 ≠ [] := by
  induction rest generalizing current curText repl with
  | nil => simp [mergeGo]
  | cons next rest ih =>
    unfold mergeGo
    by_cases h : overlapsOrAdjacent current next
    · rw [if_pos h]; exact ih _ _ _
    · rw [if_neg h]; simp

theorem merge_ne_nil {l : List Range} (repl : Repl) (h : l ≠ []) :
    (mergeOverlappingRanges l repl).1 ≠ [] := by
  unfold mergeOverlappingRanges
  by_cases hlen : l.length ≤ 1
  · rw [if_pos hlen]; exact h
  · rw [if_neg hlen]
    have hperm : List.Perm (sortRanges l) l := List.perm_insertionSort rangeLe l
    cases hs : sortRanges l with
    | nil =>
      rw [hs] at hperm
      exact absurd hperm.symm.eq_nil h
    | cons c rest => exact mergeGo_ne_nil rest c _ repl

/-- With computable file metadata, the save pass commits a well-formed,
pairwise-separated range set. -/
theorem saveNormalize_spec (st : DocState) (hwf : ∀ r ∈ st.ranges, r.wf) :
    (∀ r ∈ (saveNormalize true st).ranges, r.wf) ∧
    List.Pairwise (fun a b => ¬ overlapsOrAdjacent a b) (saveNormalize true st).ranges := by
  unfold saveNormalize
  by_cases h0 : st.ranges.isEmpty
  · rw [if_pos h0]
    have : st.ranges = [] := List.isEmpty_iff.mp h0
    exact ⟨hwf, by rw [this]; exact .nil⟩
  · rw [if_neg h0]
    have hne : st.ranges ≠ [] := fun h => h0 (by simp [h])
    have hwfu : ∀ r ∈ uniqueRanges st.ranges, r.wf := fun r hr => hwf r (mem_uniqueRanges hr)
    have hu : uniqueRanges st.ranges ≠ [] := by
      cases hst : st.ranges with
      | nil => exact absurd hst hne
      | cons a l => rw [hst] at *; exact uniqueRanges_ne_nil
    have hm := merge_ne_nil (l := uniqueRanges st.ranges) st.repl hu
    have hmp := merge_pairwise_separated (uniqueRanges st.ranges) st.repl hwfu
    have hieq : (mergeOverlappingRanges (uniqueRanges st.ranges) st.repl).1.isEmpty = false := by
      simpa using hm
    constructor
    · intro r hr
      simp only [hieq, Bool.false_eq_true, if_false, eq_self_iff_true, if_true] at hr
      exact hmp.2 r hr
    · simp only [hieq, Bool.false_eq_true, if_false, eq_self_iff_true, if_true]
      exact hmp.1

/-- Invariant carried through arbitrary operation sequences, on the
metadata-computable path. -/
theorem applyOp_inv (st : DocState) (op : MaskOp) (hop : opWf op)
    (hwf : ∀ r ∈ st.ranges, r.wf)
    (hp : List.Pairwise (fun a b => ¬ overlapsOrAdjacent a b) st.ranges) :
    (∀ r ∈ (applyOp true st op).ranges, r.wf) ∧
    List.Pairwise (fun a b => ¬ overlapsOrAdjacent a b) (applyOp true st op).ranges := by
  cases op with
  | mark sel text =>
    simp only [applyOp, markMasked]
    by_cases he : sel.isEmpty
    · rw [if_pos he]; exact ⟨hwf, hp⟩
    · rw [if_neg he]
      have hwfm : ∀ r ∈ (markMem st sel text).ranges, r.wf := by
        unfold markMem
        have hin : ∀ r ∈ st.ranges ++ [sel], r.wf := by
          intro r hr
          rcases List.mem_append.mp hr with hr | hr
          · exact hwf r hr
          · rw [List.mem_singleton.mp hr]; exact hop
        exact (merge_pairwise_separated _ _ hin).2
      exact saveNormalize_spec _ hwfm
  | unmark sel =>
    simp only [applyOp, unmarkMasked]
    have hwfm : ∀ r ∈ (unmarkMem st sel).ranges, r.wf :=
      unmarkGo_wf sel st.ranges st.repl hwf
    exact saveNormalize_spec _ hwfm

theorem applyOps_inv :
    ∀ (ops : List MaskOp) (st : DocState), (∀ op ∈ ops, opWf op) →
      (∀ r ∈ st.ranges, r.wf) →
      List.Pairwise (fun a b => ¬ overlapsOrAdjacent a b) st.ranges →
      (∀ r ∈ (applyOps true st ops).ranges, r.wf) ∧
      List.Pairwise (fun a b => ¬ overlapsOrAdjacent a b) (applyOps true st ops).ranges
  | [], st, _, hwf, hp => ⟨hwf, hp⟩
  | op :: ops, st, hops, hwf, hp => by
    have h1 := applyOp_inv st op (hops op (by simp)) hwf hp
    exact applyOps_inv ops (applyOp true st op)
      (fun o ho => hops o (List.mem_cons_of_mem op ho)) h1.1 h1.2

/-! ### Identity of the normalisation passes on already-normalised stores -/

theorem adjacent_self {a : Range} (h : a.wf) : overlapsOrAdjacent a a := by
  unfold Range.wf PosLe at h; unfold overlapsOrAdjacent; omega

theorem nodup_of_pairwise_sep {l : List Range} (hwf : ∀ r ∈ l, r.wf)
    (hp : List.Pairwise (fun a b => ¬ overlapsOrAdjacent a b) l) : l.Nodup := by
  refine hp.imp_of_mem ?_
  intro a b ha _ hab heq
  subst heq
  exact hab (adjacent_self (hwf a ha))

theorem uniqueGo_eq_self :
    ∀ {seen l : List Range}, l.Nodup → (∀ r ∈ l, r ∉ seen) → uniqueGo seen l = l
  | _, [], _, _ => rfl
  | seen, a :: l, hnd, hs => by
    unfold uniqueGo
    rw [if_neg (hs a (by simp))]
    congr 1
    refine uniqueGo_eq_self (List.nodup_cons.mp hnd).2 ?_
    intro r hr
    rw [List.mem_cons]
    push_neg
    exact ⟨fun h => (List.nodup_cons.mp hnd).1 (h ▸ hr), hs r (List.mem_cons_of_mem a hr)⟩

theorem uniqueRanges_eq_self {l : List Range} (h : l.Nodup) : uniqueRanges l = l :=
  uniqueGo_eq_self h (by simp)

theorem sortRanges_eq_self : ∀ {l : List Range}, List.Pairwise rangeLe l → sortRanges l = l
  | [], _ => rfl
  | a :: l, h => by
    have ih := sortRanges_eq_self (List.pairwise_cons.mp h).2
    show List.orderedInsert rangeLe a (List.insertionSort rangeLe l) = a :: l
    rw [show List.insertionSort rangeLe l = sortRanges l from rfl, ih]
    cases l with
    | nil => rfl
    | cons b m =>
      exact List.orderedInsert_of_le rangeLe m ((List.pairwise_cons.mp h).1 b (by simp))

theorem dropLast_getLastD {α : Type} :
    ∀ (a : α) (l : List α), (a :: l).dropLast ++ [l.getLastD a] = a :: l
  | _, [] => rfl
  | a, b :: l => by
    rw [List.getLastD_cons, List.dropLast_cons₂, List.cons_append, dropLast_getLastD b l]

/-- Along a chain of non-reaching neighbours the merge fold just copies:
the fold over `l ++ rest` emits `current :: l` except its last element,
then continues on `rest` from that last element, with the replacement
map untouched. -/
theorem mergeGo_chain_prefix :
    ∀ (l : List Range) (rest : List Range) (current : Range) (repl : Repl),
      List.Chain' (fun a b => ¬ overlapsOrAdjacent a b) (current :: l) →
      mergeGo repl (repl.getD current) current (l ++ rest) =
        ((current :: l).dropLast ++
          (mergeGo repl (repl.getD (l.getLastD current)) (l.getLastD current) rest).1,
          (mergeGo repl (repl.getD (l.getLastD current)) (l.getLastD current) rest).2)
  | [], rest, current, repl, _ => by simp
  | b :: l', rest, current, repl, hch => by
    rw [List.chain'_cons] at hch
    have ih := mergeGo_chain_prefix l' rest b repl hch.2
    show mergeGo repl (repl.getD current) current (b :: (l' ++ rest)) = _
    simp only [mergeGo]
    rw [if_neg hch.1, ih, List.getLastD_cons, List.dropLast_cons₂, List.cons_append]

/-- The merge fold is the identity on a chain of non-reaching
neighbours. -/
theorem mergeGo_chain_id (l : List Range) (current : Range) (repl : Repl)
    (hch : List.Chain' (fun a b => ¬ overlapsOrAdjacent a b) (current :: l)) :
    mergeGo repl (repl.getD current) current l = (current :: l, repl) := by
  have h := mergeGo_chain_prefix l [] current repl hch
  rw [List.append_nil] at h
  rw [h]
  show ((current :: l).dropLast ++ ([l.getLastD current], repl).1, ([l.getLastD current], repl).2) = _
  rw [show (([l.getLastD current], repl) : List Range × Repl).1 = [l.getLastD current] from rfl]
  rw [dropLast_getLastD]

/-- The merge pass is the identity (ranges and replacement map) on a
sorted, pairwise-separated store. -/
theorem merge_eq_self (l : List Range) (repl : Repl)
    (hp : List.Pairwise (fun a b => rangeLe a b ∧ ¬ overlapsOrAdjacent a b) l) :
    mergeOverlappingRanges l repl = (l, repl) := by
  unfold mergeOverlappingRanges
  by_cases hlen : l.length ≤ 1
  · rw [if_pos hlen]
  · rw [if_neg hlen]
    have hs : sortRanges l = l := sortRanges_eq_self (hp.imp fun h => h.1)
    rw [hs]
    cases l with
    | nil => rfl
    | cons c rest =>
      exact mergeGo_chain_id rest c repl (hp.imp fun h => h.2).chain'

/-- The save pass is the identity on a well-formed, sorted,
pairwise-separated store, whatever the replacement map holds and
whether or not the file metadata is computable (an identity merge
leaves both the range list and the replacement map unchanged, so the
guarded write-back writes back what is already there). -/
theorem saveNormalize_eq_self (hasMeta : Bool) (st : DocState)
    (hwf : ∀ r ∈ st.ranges, r.wf)
    (hp : List.Pairwise (fun a b => rangeLe a b ∧ ¬ overlapsOrAdjacent a b) st.ranges) :
    saveNormalize hasMeta st = st := by
  unfold saveNormalize
  by_cases h0 : st.ranges.isEmpty
  · rw [if_pos h0]
  · rw [if_neg h0]
    have hnd : st.ranges.Nodup := nodup_of_pairwise_sep hwf (hp.imp fun h => h.2)
    rw [uniqueRanges_eq_self hnd, merge_eq_self st.ranges st.repl hp]
    simp only [h0, Bool.false_eq_true, if_false, ite_self]

theorem validate_eq_self {maxLine : Nat} :
    ∀ {l : List Range} {repl : Repl},
      (∀ r ∈ l, r.start.line ≤ maxLine ∧ r.«end».line ≤ maxLine) →
      validateAndCleanMaskRanges maxLine l repl = (l, repl)
  | [], repl, _ => rfl
  | r :: l, repl, h => by
    unfold validateAndCleanMaskRanges
    rw [if_pos (h r (by simp))]
    rw [validate_eq_self fun x hx => h x (List.mem_cons_of_mem r hx)]

theorem validate_mem_bounds {maxLine : Nat} :
    ∀ {l : List Range} {repl : Repl} {x : Range},
      x ∈ (validateAndCleanMaskRanges maxLine l repl).1 →
      x.start.line ≤ maxLine ∧ x.«end».line ≤ maxLine
  | [], repl, x, h => by simp [validateAndCleanMaskRanges] at h
  | r :: l, repl, x, h => by
    unfold validateAndCleanMaskRanges at h
    by_cases hr : r.start.line ≤ maxLine ∧ r.«end».line ≤ maxLine
    · rw [if_pos hr] at h
      rcases List.mem_cons.mp h with rfl | h2
      · exact hr
      · exact validate_mem_bounds h2
    · rw [if_neg hr] at h
      exact validate_mem_bounds h

/-! ### Frame laws of the replacement map -/

theorem Repl.get_delete_self (m : Repl) (k : Range) : (m.delete k).get k = none := by
  induction m with
  | nil => rfl
  | cons p m ih =>
    by_cases hp : p.1 = k
    · simpa [Repl.delete, Repl.get, hp] using ih
    · simpa [Repl.delete, Repl.get, hp] using ih

theorem Repl.get_delete_ne (m : Repl) {k k' : Range} (h : k' ≠ k) :
    (m.delete k).get k' = m.get k' := by
  induction m with
  | nil => rfl
  | cons p m ih =>
    by_cases hp : p.1 = k
    · have hpk : p.1 ≠ k' := fun he => h (he.symm.trans hp)
      rw [show Repl.delete (p :: m) k = Repl.delete m k by simp [Repl.delete, hp]]
      rw [show Repl.get (p :: m) k' = Repl.get m k' by
        simp [Repl.get, List.find?_cons, hpk]]
      exact ih
    · by_cases hp' : p.1 = k'
      · rw [show Repl.delete (p :: m) k = p :: Repl.delete m k by simp [Repl.delete, hp]]
        rw [show Repl.get (p :: Repl.delete m k) k' = some p.2 by
          simp [Repl.get, List.find?_cons, hp']]
        rw [show Repl.get (p :: m) k' = some p.2 by simp [Repl.get, List.find?_cons, hp']]
      · rw [show Repl.delete (p :: m) k = p :: Repl.delete m k by simp [Repl.delete, hp]]
        rw [show Repl.get (p :: Repl.delete m k) k' = Repl.get (Repl.delete m k) k' by
          simp [Repl.get, List.find?_cons, hp']]
        rw [show Repl.get (p :: m) k' = Repl.get m k' by simp [Repl.get, List.find?_cons, hp']]
        exact ih

theorem Repl.get_set_self (m : Repl) (k : Range) (v : String) :
    (m.set k v).get k = some v := by
  simp [Repl.set, Repl.get]

theorem Repl.get_set_ne (m : Repl) {k k' : Range} (v : String) (h : k' ≠ k) :
    (m.set k v).get k' = m.get k' := by
  have hkk : ¬ k = k' := fun he => h he.symm
  rw [show Repl.get (Repl.set m k v) k' = Repl.get (Repl.delete m k) k' by
    simp [Repl.set, Repl.get, List.find?_cons, hkk]]
  exact Repl.get_delete_ne m h

theorem orDefault_ne_empty (s : Option String) : orDefault s ≠ "" := by
  unfold orDefault
  match s with
  | none => simp
  | some t =>
    by_cases ht : t = "" <;> simp [ht]

theorem orDefault_idem (s : Option String) : orDefault (some (orDefault s)) = orDefault s := by
  have h := orDefault_ne_empty s
  generalize orDefault s = t at h
  simp [orDefault, h]

theorem Repl.getD_set_getD (m m' : Repl) (k : Range) :
    ((m'.set k (m.getD k)).getD k) = m.getD k := by
  unfold Repl.getD
  rw [Repl.get_set_self]
  exact orDefault_idem _

/-! ### Empty-selection geometry -/

theorem adj_of_start_le {a b : Range} (h : PosLe b.start a.«end») : overlapsOrAdjacent a b := by
  unfold PosLe at h; unfold overlapsOrAdjacent; omega

theorem not_adj_end_before {a b : Range} (h : ¬ overlapsOrAdjacent a b) :
    a.«end».isBefore b.start := by
  unfold overlapsOrAdjacent at h; unfold Position.isBefore; omega

theorem pos_ne_parts {a b : Position} (h : a ≠ b) :
    a.line ≠ b.line ∨ a.character ≠ b.character := by
  by_cases hl : a.line = b.line
  · by_cases hc : a.character = b.character
    · exact absurd (by cases a; cases b; simp_all) h
    · exact Or.inr hc
  · exact Or.inl hl

theorem isBefore_of_le_ne {a b : Position} (hle : PosLe a b) (hne : a ≠ b) :
    a.isBefore b := by
  have := pos_ne_parts hne
  unfold PosLe at hle; unfold Position.isBefore; omega

/-- Intersecting with the empty selection at `p` succeeds exactly when
`p` lies in the closed span of the range (the editor's `intersection`
returns a truthy empty range when the two merely touch). -/
theorem point_inter_isSome {r : Range} {p : Position} :
    (r.intersection ⟨p, p⟩).isSome ↔ (PosLe r.start p ∧ PosLe p r.«end») := by
  unfold Range.intersection
  by_cases h1 : r.start.isAfter p <;> by_cases h2 : r.«end».isBefore p <;>
    (try simp only [Position.max, Position.min, h1, h2, if_true, if_false, ite_true,
      ite_false]) <;>
    (try (split <;> rename_i h3)) <;>
    (try simp only [Option.isSome_some, Option.isSome_none, Bool.false_eq_true, false_iff,
      eq_self_iff_true, true_iff]) <;>
    (try unfold PosLe) <;>
    (try simp only [Position.isAfter, Position.isBefore] at *) <;>
    omega

theorem isBefore_irrefl (a : Position) : ¬ a.isBefore a := by
  unfold Position.isBefore; omega

theorem not_isAfter_of_le {a b : Position} (h : PosLe a b) : ¬ a.isAfter b := by
  unfold PosLe at h; unfold Position.isAfter; omega

theorem Repl.getD_congr {m m' : Repl} {k : Range} (h : m.get k = m'.get k) :
    m.getD k = m'.getD k := by
  unfold Repl.getD; rw [h]

/-! ### The unmark loop on non-intersecting ranges -/

theorem unmarkGo_keep {sel : Range} :
    ∀ {l : List Range} {repl : Repl}, (∀ x ∈ l, ¬ (x.intersection sel).isSome) →
      unmarkGo sel l repl = (l, repl)
  | [], repl, _ => rfl
  | a :: l, repl, h => by
    rw [unmarkGo_cons_none (h a (by simp)),
      unmarkGo_keep fun x hx => h x (List.mem_cons_of_mem a hx)]

theorem unmarkGo_append_keep {sel : Range} :
    ∀ {l₁ l₂ : List Range} {repl : Repl}, (∀ x ∈ l₁, ¬ (x.intersection sel).isSome) →
      unmarkGo sel (l₁ ++ l₂) repl =
        (l₁ ++ (unmarkGo sel l₂ repl).1, (unmarkGo sel l₂ repl).2)
  | [], l₂, repl, _ => by simp
  | a :: l₁, l₂, repl, h => by
    rw [List.cons_append, unmarkGo_cons_none (h a (by simp)),
      unmarkGo_append_keep fun x hx => h x (List.mem_cons_of_mem a hx)]
    simp

/-! ### Re-merging the two halves of a boundary split -/

/-- One merge step folds two pieces `b'`, `a'` back into the single
range `r` they partition, then copies the separated tail. -/
theorem mergeGo_pieces (post : List Range) (b' a' r : Range) (R : Repl) (t : String)
    (hadj : overlapsOrAdjacent b' a') (hend : ¬ b'.«end».isAfter a'.«end»)
    (hr : r = ⟨b'.start, a'.«end»⟩) (htb : R.getD b' = t) (hta : R.getD a' = t)
    (ht : t ≠ "")
    (hchain : List.Chain' (fun a b => ¬ overlapsOrAdjacent a b) (r :: post)) :
    mergeGo R (R.getD b') b' (a' :: post) =
      (r :: post, ((R.delete b').delete a').set r t) := by
  have step : mergeGo R (R.getD b') b' (a' :: post) =
      mergeGo (((R.delete b').delete a').set r t) t r post := by
    simp only [mergeGo]
    rw [if_pos hadj, if_neg hend, htb, hta, hr]
    simp only [ne_eq, ite_self]
  rw [step]
  generalize hM : ((R.delete b').delete a').set r t = M
  have hgt : M.getD r = t := by
    rw [← hM]
    unfold Repl.getD
    rw [Repl.get_set_self]
    unfold orDefault
    simp [ht]
  rw [← hgt]
  exact mergeGo_chain_id post r M hchain

/-- The merge pass applied to a separated store whose entry `r` has been
replaced by its two halves `b'`, `a'` reconstitutes the original store,
re-recording `r`'s replacement text. -/
theorem merge_insert_pieces (pre post : List Range) (b' a' r : Range) (R : Repl) (t : String)
    (hsort : List.Pairwise rangeLe (pre ++ b' :: a' :: post))
    (hchainpre : List.Chain' (fun a b => ¬ overlapsOrAdjacent a b) (pre ++ [b']))
    (hadj : overlapsOrAdjacent b' a') (hend : ¬ b'.«end».isAfter a'.«end»)
    (hr : r = ⟨b'.start, a'.«end»⟩) (htb : R.getD b' = t) (hta : R.getD a' = t)
    (ht : t ≠ "")
    (hchainpost : List.Chain' (fun a b => ¬ overlapsOrAdjacent a b) (r :: post)) :
    mergeOverlappingRanges (pre ++ b' :: a' :: post) R =
      (pre ++ r :: post, ((R.delete b').delete a').set r t) := by
  unfold mergeOverlappingRanges
  have hlen : ¬ (pre ++ b' :: a' :: post).length ≤ 1 := by
    simp [List.length_append]
    omega
  rw [if_neg hlen, sortRanges_eq_self hsort]
  cases pre with
  | nil =>
    simpa using mergeGo_pieces post b' a' r R t hadj hend hr htb hta ht hchainpost
  | cons q pre' =>
    have hpre : mergeGo R (R.getD q) q ((pre' ++ [b']) ++ (a' :: post)) =
        ((q :: (pre' ++ [b'])).dropLast ++
          (mergeGo R (R.getD ((pre' ++ [b']).getLastD q)) ((pre' ++ [b']).getLastD q)
            (a' :: post)).1,
          (mergeGo R (R.getD ((pre' ++ [b']).getLastD q)) ((pre' ++ [b']).getLastD q)
            (a' :: post)).2) :=
      mergeGo_chain_prefix (pre' ++ [b']) (a' :: post) q R (by
        simpa using hchainpre)
    have hlast : (pre' ++ [b']).getLastD q = b' := List.getLastD_concat _ _ _
    have hdrop : (q :: (pre' ++ [b'])).dropLast = q :: pre' := by
      rw [show q :: (pre' ++ [b']) = (q :: pre') ++ [b'] by simp]
      exact List.dropLast_concat
    rw [hlast, hdrop] at hpre
    have hstep := mergeGo_pieces post b' a' r R t hadj hend hr htb hta ht hchainpost
    show mergeGo R (R.getD q) q (pre' ++ b' :: a' :: post) = _
    rw [show pre' ++ b' :: a' :: post = (pre' ++ [b']) ++ (a' :: post) by simp]
    rw [hpre, hstep]

theorem posLe_refl (a : Position) : PosLe a a := by unfold PosLe; omega

theorem posLe_trans {a b c : Position} (h1 : PosLe a b) (h2 : PosLe b c) : PosLe a c := by
  unfold PosLe at *; omega

theorem posLe_of_le_before {a b c : Position} (h1 : PosLe a b) (h2 : b.isBefore c) :
    PosLe a c := by
  unfold PosLe at *; unfold Position.isBefore at h2; omega

theorem orDefault_some {t : String} (h : t ≠ "") : orDefault (some t) = t := by
  unfold orDefault; simp [h]

/-- Commit step shared by the two boundary cases of an empty-selection
unmark: the loop rebuilt exactly the original range `r` (as its single
surviving piece) and re-recorded its text, so the save pass is the
identity on the ranges. -/
theorem unmark_commit_single (hasMeta : Bool) (st : DocState) (pre post : List Range)
    (r : Range) (p : Position)
    (heq : st.ranges = pre ++ r :: post)
    (hwf0 : ∀ x ∈ st.ranges, x.wf)
    (hp0 : List.Pairwise (fun a b => rangeLe a b ∧ ¬ overlapsOrAdjacent a b) st.ranges)
    (hkeep_pre : ∀ x ∈ pre, ¬ (x.intersection ⟨p, p⟩).isSome)
    (hri : (r.intersection ⟨p, p⟩).isSome)
    (hkeep_post : ∀ y ∈ post, ¬ (y.intersection ⟨p, p⟩).isSome)
    (hpieces : pieces r ⟨p, p⟩ = [r])
    (hrepl : pieceRepl st.repl r ⟨p, p⟩ = (st.repl.delete r).set r (st.repl.getD r)) :
    (unmarkMasked hasMeta (some ⟨p, p⟩) st).ranges = st.ranges ∧
    ∀ k ∈ st.ranges, (unmarkMasked hasMeta (some ⟨p, p⟩) st).repl.getD k = st.repl.getD k := by
  have hgo : unmarkMem st ⟨p, p⟩ =
      ⟨pre ++ ([r] ++ post), (st.repl.delete r).set r (st.repl.getD r)⟩ := by
    unfold unmarkMem
    rw [heq, unmarkGo_append_keep hkeep_pre, unmarkGo_cons_some hri,
      unmarkGo_keep hkeep_post, hpieces, hrepl]
  have hres : unmarkMasked hasMeta (some ⟨p, p⟩) st =
      ⟨st.ranges, (st.repl.delete r).set r (st.repl.getD r)⟩ := by
    simp only [unmarkMasked]
    rw [hgo, show pre ++ ([r] ++ post) = st.ranges by rw [heq]; simp]
    exact saveNormalize_eq_self hasMeta ⟨st.ranges, _⟩ hwf0 hp0
  rw [hres]
  refine ⟨rfl, ?_⟩
  intro k hk
  by_cases hkr : k = r
  · subst hkr
    exact Repl.getD_set_getD st.repl (st.repl.delete k) k
  · apply Repl.getD_congr
    rw [Repl.get_set_ne _ _ hkr, Repl.get_delete_ne _ hkr]

/-- Unmarking with an empty (caret) selection leaves the committed
per-document state unchanged: the handler's transient split of a
containing range is re-merged by the save pass that completes the
command, and every stored range keeps its replacement text. -/
theorem unmark_empty_eq (st : DocState) (p : Position)
    (hwf0 : ∀ x ∈ st.ranges, x.wf) (hne0 : ∀ x ∈ st.ranges, ¬ x.isEmpty)
    (hp0 : List.Pairwise (fun a b => rangeLe a b ∧ ¬ overlapsOrAdjacent a b) st.ranges) :
    (unmarkMasked true (some ⟨p, p⟩) st).ranges = st.ranges ∧
    ∀ k ∈ st.ranges, (unmarkMasked true (some ⟨p, p⟩) st).repl.getD k = st.repl.getD k := by
  by_cases hex : ∃ r ∈ st.ranges, (r.intersection ⟨p, p⟩).isSome
  case neg =>
    push_neg at hex
    have hmem : unmarkMem st ⟨p, p⟩ = st := by
      unfold unmarkMem
      rw [unmarkGo_keep fun x hx => by simpa using hex x hx]
    rw [show unmarkMasked true (some ⟨p, p⟩) st = st from by
      simp only [unmarkMasked, hmem]
      exact saveNormalize_eq_self true st hwf0 hp0]
    exact ⟨rfl, fun k _ => rfl⟩
  case pos =>
    obtain ⟨r, hrmem, hri⟩ := hex
    obtain ⟨pre, post, heq⟩ := List.append_of_mem hrmem
    have hcont := point_inter_isSome.mp hri
    have hwfr : r.wf := hwf0 r hrmem
    have hner : ¬ r.isEmpty := hne0 r hrmem
    have hp1 : List.Pairwise (fun a b => rangeLe a b ∧ ¬ overlapsOrAdjacent a b)
        (pre ++ r :: post) := heq ▸ hp0
    obtain ⟨hp_pre, hp_rest, hp_cross⟩ := List.pairwise_append.mp hp1
    have h_r_post := (List.pairwise_cons.mp hp_rest).1
    have hp_post := (List.pairwise_cons.mp hp_rest).2
    have hkeep_pre : ∀ x ∈ pre, ¬ (x.intersection ⟨p, p⟩).isSome := by
      intro x hx hxi
      have hxc := point_inter_isSome.mp hxi
      exact (hp_cross x hx r (by simp)).2
        (adj_of_start_le (posLe_trans hcont.1 hxc.2))
    have hkeep_post : ∀ y ∈ post, ¬ (y.intersection ⟨p, p⟩).isSome := by
      intro y hy hyi
      have hyc := point_inter_isSome.mp hyi
      exact (h_r_post y hy).2 (adj_of_start_le (posLe_trans hyc.1 hcont.2))
    by_cases hps : p = r.start
    · -- caret at the range's start: the single surviving piece is `r`
      have hA : ¬ r.start.isBefore p := by rw [hps]; exact isBefore_irrefl r.start
      have hB : p.isBefore r.«end» := by
        rw [hps]
        exact isBefore_of_le_ne hwfr fun h => hner h
      have hpieces : pieces r ⟨p, p⟩ = [r] := by
        simp only [pieces]
        rw [if_neg hA, if_pos hB, hps]
        rfl
      have hrepl : pieceRepl st.repl r ⟨p, p⟩ =
          (st.repl.delete r).set r (st.repl.getD r) := by
        simp only [pieceRepl]
        rw [if_pos hB, if_neg hA, hps]
      exact unmark_commit_single true st pre post r p heq hwf0 hp0 hkeep_pre hri hkeep_post
        hpieces hrepl
    · by_cases hpe : p = r.«end»
      · -- caret at the range's end: the single surviving piece is `r`
        have hA : r.start.isBefore p := isBefore_of_le_ne hcont.1 fun h => hps h.symm
        have hB : ¬ p.isBefore r.«end» := by rw [hpe]; exact isBefore_irrefl r.«end»
        have hpieces : pieces r ⟨p, p⟩ = [r] := by
          simp only [pieces]
          rw [if_pos hA, if_neg hB, hpe]
          rfl
        have hrepl : pieceRepl st.repl r ⟨p, p⟩ =
            (st.repl.delete r).set r (st.repl.getD r) := by
          simp only [pieceRepl]
          rw [if_neg hB, if_pos hA, hpe]
        exact unmark_commit_single true st pre post r p heq hwf0 hp0 hkeep_pre hri hkeep_post
          hpieces hrepl
      · -- caret strictly inside: two adjacent pieces, re-merged on save
        have hb : r.start.isBefore p := isBefore_of_le_ne hcont.1 fun h => hps h.symm
        have ha : p.isBefore r.«end» := isBefore_of_le_ne hcont.2 hpe
        have ht : st.repl.getD r ≠ "" := orDefault_ne_empty _
        have hba : (⟨r.start, p⟩ : Range) ≠ ⟨p, r.«end»⟩ := fun hEq =>
          hps (congrArg Range.start hEq).symm
        have hpieces : pieces r ⟨p, p⟩ = [⟨r.start, p⟩, ⟨p, r.«end»⟩] := by
          simp only [pieces]
          rw [if_pos hb, if_pos ha]
          rfl
        have hrepl : pieceRepl st.repl r ⟨p, p⟩ =
            ((st.repl.delete r).set ⟨r.start, p⟩ (st.repl.getD r)).set ⟨p, r.«end»⟩
              (st.repl.getD r) := by
          simp only [pieceRepl]
          rw [if_pos hb, if_pos ha]
        have hgo : unmarkMem st ⟨p, p⟩ =
            ⟨pre ++ ([⟨r.start, p⟩, ⟨p, r.«end»⟩] ++ post),
              ((st.repl.delete r).set ⟨r.start, p⟩ (st.repl.getD r)).set ⟨p, r.«end»⟩
                (st.repl.getD r)⟩ := by
          unfold unmarkMem
          rw [heq, unmarkGo_append_keep hkeep_pre, unmarkGo_cons_some hri,
            unmarkGo_keep hkeep_post, hpieces, hrepl]
        -- the two pieces contain the caret, hence differ from every other entry
        have hbp : ((⟨r.start, p⟩ : Range).intersection ⟨p, p⟩).isSome :=
          point_inter_isSome.mpr ⟨hcont.1, posLe_refl p⟩
        have hap : ((⟨p, r.«end»⟩ : Range).intersection ⟨p, p⟩).isSome :=
          point_inter_isSome.mpr ⟨posLe_refl p, hcont.2⟩
        have hother_b : ∀ x ∈ pre ++ post, x ≠ ⟨r.start, p⟩ := by
          intro x hx hEq
          rcases List.mem_append.mp hx with hx | hx
          · exact hkeep_pre x hx (hEq ▸ hbp)
          · exact hkeep_post x hx (hEq ▸ hbp)
        have hother_a : ∀ x ∈ pre ++ post, x ≠ ⟨p, r.«end»⟩ := by
          intro x hx hEq
          rcases List.mem_append.mp hx with hx | hx
          · exact hkeep_pre x hx (hEq ▸ hap)
          · exact hkeep_post x hx (hEq ▸ hap)
        have hnd0 : (pre ++ r :: post).Nodup :=
          nodup_of_pairwise_sep (heq ▸ hwf0) (hp1.imp fun h => h.2)
        obtain ⟨hnd_pre, hnd_rest, hdisj⟩ := List.nodup_append.mp hnd0
        have hndnew : (pre ++ (⟨r.start, p⟩ : Range) :: (⟨p, r.«end»⟩ : Range) :: post).Nodup := by
          rw [List.nodup_append]
          refine ⟨hnd_pre, ?_, ?_⟩
          · rw [List.nodup_cons, List.nodup_cons]
            refine ⟨?_, ?_, (List.nodup_cons.mp hnd_rest).2⟩
            · intro hmem
              rcases List.mem_cons.mp hmem with hEq | hmem
              · exact hba hEq
              · exact hother_b _ (List.mem_append.mpr (Or.inr hmem)) rfl
            · intro hmem
              exact hother_a _ (List.mem_append.mpr (Or.inr hmem)) rfl
          · intro x hx hx2
            rcases List.mem_cons.mp hx2 with hEq | hx2
            · exact hother_b x (List.mem_append.mpr (Or.inl hx)) hEq
            · rcases List.mem_cons.mp hx2 with hEq | hx2
              · exact hother_a x (List.mem_append.mpr (Or.inl hx)) hEq
              · exact hdisj hx (List.mem_cons_of_mem r hx2)
        have hsort : List.Pairwise rangeLe
            (pre ++ (⟨r.start, p⟩ : Range) :: (⟨p, r.«end»⟩ : Range) :: post) := by
          rw [List.pairwise_append]
          refine ⟨hp_pre.imp fun h => h.1, ?_, ?_⟩
          · rw [List.pairwise_cons]
            refine ⟨?_, ?_⟩
            · intro y hy
              rcases List.mem_cons.mp hy with rfl | hy
              · exact hcont.1
              · exact (h_r_post y hy).1
            · rw [List.pairwise_cons]
              refine ⟨?_, hp_post.imp fun h => h.1⟩
              intro y hy
              exact posLe_of_le_before hcont.2 (not_adj_end_before (h_r_post y hy).2)
          · intro x hx y hy
            rcases List.mem_cons.mp hy with rfl | hy
            · exact (hp_cross x hx r (by simp)).1
            · rcases List.mem_cons.mp hy with rfl | hy
              · exact posLe_trans (hp_cross x hx r (by simp)).1 hcont.1
              · exact (hp_cross x hx y (List.mem_cons_of_mem r hy)).1
        have hchainpre : List.Chain' (fun a b => ¬ overlapsOrAdjacent a b)
            (pre ++ [(⟨r.start, p⟩ : Range)]) := by
          rw [List.chain'_append]
          refine ⟨(hp_pre.imp fun h => h.2).chain', List.chain'_singleton _, ?_⟩
          intro x hx y hy
          rw [List.head?_cons, Option.mem_some_iff] at hy
          subst hy
          have hxpre : x ∈ pre := List.mem_of_mem_getLast? hx
          intro hadj
          exact (hp_cross x hxpre r (by simp)).2 ((adjacent_congr_start rfl).mp hadj)
        have hadj : overlapsOrAdjacent ⟨r.start, p⟩ ⟨p, r.«end»⟩ := by
          unfold overlapsOrAdjacent
          simp
        have hend : ¬ (⟨r.start, p⟩ : Range).«end».isAfter (⟨p, r.«end»⟩ : Range).«end» :=
          not_isAfter_of_le hcont.2
        have htb : (((st.repl.delete r).set ⟨r.start, p⟩ (st.repl.getD r)).set ⟨p, r.«end»⟩
            (st.repl.getD r)).getD ⟨r.start, p⟩ = st.repl.getD r := by
          unfold Repl.getD
          rw [Repl.get_set_ne _ _ hba, Repl.get_set_self]
          exact orDefault_some ht
        have hta : (((st.repl.delete r).set ⟨r.start, p⟩ (st.repl.getD r)).set ⟨p, r.«end»⟩
            (st.repl.getD r)).getD ⟨p, r.«end»⟩ = st.repl.getD r := by
          unfold Repl.getD
          rw [Repl.get_set_self]
          exact orDefault_some ht
        have hchainpost : List.Chain' (fun a b => ¬ overlapsOrAdjacent a b) (r :: post) :=
          (hp_rest.imp fun h => h.2).chain'
        have hmerge := merge_insert_pieces pre post ⟨r.start, p⟩ ⟨p, r.«end»⟩ r
          (((st.repl.delete r).set ⟨r.start, p⟩ (st.repl.getD r)).set ⟨p, r.«end»⟩
            (st.repl.getD r))
          (st.repl.getD r) hsort hchainpre hadj hend rfl htb hta ht hchainpost
        have hres : unmarkMasked true (some ⟨p, p⟩) st =
            ⟨st.ranges,
              (((((st.repl.delete r).set ⟨r.start, p⟩ (st.repl.getD r)).set ⟨p, r.«end»⟩
                  (st.repl.getD r)).delete ⟨r.start, p⟩).delete ⟨p, r.«end»⟩).set r
                (st.repl.getD r)⟩ := by
          simp only [unmarkMasked]
          rw [hgo]
          rw [show pre ++ ([(⟨r.start, p⟩ : Range), ⟨p, r.«end»⟩] ++ post) =
            pre ++ (⟨r.start, p⟩ : Range) :: (⟨p, r.«end»⟩ : Range) :: post by simp]
          unfold saveNormalize
          have h1 : ((pre ++ (⟨r.start, p⟩ : Range) :: (⟨p, r.«end»⟩ : Range) :: post) :
              List Range).isEmpty = false := by simp
          simp only [h1, Bool.false_eq_true, if_false]
          rw [uniqueRanges_eq_self hndnew, hmerge]
          have h2 : ((pre ++ r :: post) : List Range).isEmpty = false := by simp
          simp only [h2, Bool.false_eq_true, if_false, eq_self_iff_true, if_true]
          rw [← heq]
        rw [hres]
        refine ⟨rfl, ?_⟩
        intro k hk
        by_cases hkr : k = r
        · subst hkr
          unfold Repl.getD
          rw [Repl.get_set_self]
          exact orDefault_some ht
        · have hkmem : k ∈ pre ++ post := by
            have := heq ▸ hk
            rcases List.mem_append.mp this with hkp | hkp
            · exact List.mem_append.mpr (Or.inl hkp)
            · rcases List.mem_cons.mp hkp with rfl | hkp
              · exact absurd rfl hkr
              · exact List.mem_append.mpr (Or.inr hkp)
          have hknb : k ≠ ⟨r.start, p⟩ := hother_b k hkmem
          have hkna : k ≠ ⟨p, r.«end»⟩ := hother_a k hkmem
          apply Repl.getD_congr
          rw [Repl.get_set_ne _ _ hkr, Repl.get_delete_ne _ hkna, Repl.get_delete_ne _ hknb,
            Repl.get_set_ne _ _ hkna, Repl.get_set_ne _ _ hknb, Repl.get_delete_ne _ hkr]

/-! ### Claim theorems -/

/-- C1: the copy handler does NOT substitute masked text.  For the
document `"API_KEY=test123\n"` with the stored masked range covering
`"test123"`, copying the full first line places the raw
`"API_KEY=test123"` on the clipboard, not `"API_KEY=[***]"`: the
substitution loop in both copy handlers is commented out in the source,
so `finalText` remains the selected text and the stored replacement
texts are never consulted.  The repository's own test suite and README
assert that the clipboard receives the replacement text. -/
theorem copy_no_substitution :
    clipboardCopyAction ["API_KEY=test123", ""] ⟨⟨0, 0⟩, ⟨0, 15⟩⟩ [⟨⟨0, 8⟩, ⟨0, 15⟩⟩] =
      "API_KEY=test123" ∧
    clipboardCopyAction ["API_KEY=test123", ""] ⟨⟨0, 0⟩, ⟨0, 15⟩⟩ [⟨⟨0, 8⟩, ⟨0, 15⟩⟩] ≠
      "API_KEY=[***]" ∧
    (([⟨⟨0, 8⟩, ⟨0, 15⟩⟩] : List Range).filter
      (fun r => (r.intersection ⟨⟨0, 0⟩, ⟨0, 15⟩⟩).isSome)).length > 0 := by
  decide

/-- C5: unmasking the selection `[L2C0, L3C0)` out of the stored range
`[L0C0, L5C0)` (text `"SECRET"`) does split the entry into
`[L0C0, L2C0)` and `[L3C0, L5C0)` inside the handler, but the
`saveMasksToFile` call that completes the command (with the document's
file metadata computable, the normal case) merges the two pieces right
back (end line 2 and start `(3,0)` satisfy the next-line-column-0
adjacency rule), so the committed store again holds the single original
range with its original text — the partial unmask is undone. -/
theorem unmark_split_remerged_on_save :
    (unmarkMem ⟨[⟨⟨0, 0⟩, ⟨5, 0⟩⟩], [(⟨⟨0, 0⟩, ⟨5, 0⟩⟩, "SECRET")]⟩ ⟨⟨2, 0⟩, ⟨3, 0⟩⟩).ranges =
      [⟨⟨0, 0⟩, ⟨2, 0⟩⟩, ⟨⟨3, 0⟩, ⟨5, 0⟩⟩] ∧
    unmarkMasked true (some ⟨⟨2, 0⟩, ⟨3, 0⟩⟩)
        ⟨[⟨⟨0, 0⟩, ⟨5, 0⟩⟩], [(⟨⟨0, 0⟩, ⟨5, 0⟩⟩, "SECRET")]⟩ =
      ⟨[⟨⟨0, 0⟩, ⟨5, 0⟩⟩], [(⟨⟨0, 0⟩, ⟨5, 0⟩⟩, "SECRET")]⟩ := by
  decide

/-- C3: the disjointness invariant FAILS in the source when the
document file's metadata is not computable (`calculateFileMetadata`
returns `null`, e.g. an untitled document or a file deleted
mid-session): the save pass's in-memory write-back of the merged ranges
sits inside the `if (metadata)` guard, and the unmark handler performs
no merge of its own, so its split pieces are committed un-merged.
Marking `[L0C0, L5C0)` and then unmasking `[L2C0, L3C0)` — both
well-formed, editor-normalised selections — commits the two pieces
`[L0C0, L2C0)` and `[L3C0, L5C0)`, which are adjacent under the
source's own adjacent-or-overlapping rule, violating the claimed
invariant. -/
theorem unmark_without_metadata_commits_adjacent_pieces :
    (∀ op ∈ [MaskOp.mark ⟨⟨0, 0⟩, ⟨5, 0⟩⟩ "SECRET", MaskOp.unmark ⟨⟨2, 0⟩, ⟨3, 0⟩⟩],
      opWf op) ∧
    (applyOps false emptyDoc
        [MaskOp.mark ⟨⟨0, 0⟩, ⟨5, 0⟩⟩ "SECRET", MaskOp.unmark ⟨⟨2, 0⟩, ⟨3, 0⟩⟩]).ranges =
      [⟨⟨0, 0⟩, ⟨2, 0⟩⟩, ⟨⟨3, 0⟩, ⟨5, 0⟩⟩] ∧
    overlapsOrAdjacent ⟨⟨0, 0⟩, ⟨2, 0⟩⟩ ⟨⟨3, 0⟩, ⟨5, 0⟩⟩ := by
  decide

/-- C4: an empty-selection unmark is NOT a no-op in the source when the
document file's metadata is not computable.  The unmark handler has no
empty-selection guard, and vscode's `Range.intersection` is truthy on
mere touching, so a caret inside the stored range `[L0C0, L5C0)` splits
it at the caret; with `calculateFileMetadata` returning `null` the save
pass's metadata-guarded write-back never re-merges the pieces, so the
two caret-split halves are committed in place of the original entry,
and the rewritten storage file drops the document's record entirely
(the no-active-editor and empty-selection mark paths do bail out
unchanged, as the first two conjuncts record). -/
theorem empty_unmark_mutates_without_metadata :
    markMasked false none "T" ⟨[⟨⟨0, 0⟩, ⟨5, 0⟩⟩], [(⟨⟨0, 0⟩, ⟨5, 0⟩⟩, "SECRET")]⟩ =
      ⟨[⟨⟨0, 0⟩, ⟨5, 0⟩⟩], [(⟨⟨0, 0⟩, ⟨5, 0⟩⟩, "SECRET")]⟩ ∧
    markMasked false (some ⟨⟨2, 5⟩, ⟨2, 5⟩⟩) "T"
        ⟨[⟨⟨0, 0⟩, ⟨5, 0⟩⟩], [(⟨⟨0, 0⟩, ⟨5, 0⟩⟩, "SECRET")]⟩ =
      ⟨[⟨⟨0, 0⟩, ⟨5, 0⟩⟩], [(⟨⟨0, 0⟩, ⟨5, 0⟩⟩, "SECRET")]⟩ ∧
    (⟨⟨2, 5⟩, ⟨2, 5⟩⟩ : Range).isEmpty ∧
    (unmarkMasked false (some ⟨⟨2, 5⟩, ⟨2, 5⟩⟩)
        ⟨[⟨⟨0, 0⟩, ⟨5, 0⟩⟩], [(⟨⟨0, 0⟩, ⟨5, 0⟩⟩, "SECRET")]⟩).ranges =
      [⟨⟨0, 0⟩, ⟨2, 5⟩⟩, ⟨⟨2, 5⟩, ⟨5, 0⟩⟩] ∧
    saveMasksToFile (fun _ => none)
        [("file:///doc", unmarkMasked false (some ⟨⟨2, 5⟩, ⟨2, 5⟩⟩)
          ⟨[⟨⟨0, 0⟩, ⟨5, 0⟩⟩], [(⟨⟨0, 0⟩, ⟨5, 0⟩⟩, "SECRET")]⟩)] = [] := by
  decide

theorem pairwise_and {R S : Range → Range → Prop} :
    ∀ {l : List Range}, List.Pairwise R l → List.Pairwise S l →
      List.Pairwise (fun a b => R a b ∧ S a b) l
  | [], _, _ => .nil
  | a :: l, h1, h2 => by
    rw [List.pairwise_cons] at h1 h2 ⊢
    exact ⟨fun b hb => ⟨h1.1 b hb, h2.1 b hb⟩, pairwise_and h1.2 h2.2⟩

/-- C2: saving one document's Range Store and loading it back against
the unmodified live document reproduces an equivalent store — the same
set of ranges (the store list is re-emitted in sorted order, a
permutation) and the identical in-memory replacement map (which an
identity merge pass does not touch and which load does not clear). -/
theorem save_load_roundtrip (st : DocState) (maxLine : Nat)
    (hwf : ∀ x ∈ st.ranges, x.wf)
    (hsep : List.Pairwise (fun a b =>
      (rangeLe a b → ¬ overlapsOrAdjacent a b) ∧
      (rangeLe b a → ¬ overlapsOrAdjacent b a)) st.ranges)
    (hbounds : ∀ x ∈ st.ranges, x.start.line ≤ maxLine ∧ x.«end».line ≤ maxLine) :
    List.Perm (saveThenLoadDoc maxLine st).ranges st.ranges ∧
    (saveThenLoadDoc maxLine st).repl = st.repl := by
  simp only [saveThenLoadDoc]
  by_cases h0 : st.ranges.isEmpty
  · rw [if_pos h0]
    have he : st.ranges = [] := List.isEmpty_iff.mp h0
    exact ⟨by rw [he], rfl⟩
  · rw [if_neg h0]
    have hnd : st.ranges.Nodup := by
      refine hsep.imp_of_mem ?_
      intro a b ha _ hab heqv
      subst heqv
      exact (hab.1 (posLe_refl a.start)) (adjacent_self (hwf a ha))
    rw [uniqueRanges_eq_self hnd]
    have hperm : List.Perm (sortRanges st.ranges) st.ranges :=
      List.perm_insertionSort rangeLe st.ranges
    have hsor : List.Pairwise rangeLe (sortRanges st.ranges) :=
      List.sorted_insertionSort rangeLe st.ranges
    have hsep2 : List.Pairwise (fun a b =>
        (rangeLe a b → ¬ overlapsOrAdjacent a b) ∧
        (rangeLe b a → ¬ overlapsOrAdjacent b a)) (sortRanges st.ranges) :=
      (hperm.pairwise_iff fun h => ⟨h.2, h.1⟩).mpr hsep
    have hgood : List.Pairwise (fun a b => rangeLe a b ∧ ¬ overlapsOrAdjacent a b)
        (sortRanges st.ranges) :=
      (pairwise_and hsor hsep2).imp fun h => ⟨h.1, h.2.1 h.1⟩
    have hmerge : mergeOverlappingRanges st.ranges st.repl =
        (sortRanges st.ranges, st.repl) := by
      unfold mergeOverlappingRanges
      by_cases hlen : st.ranges.length ≤ 1
      · rw [if_pos hlen]
        cases hst : st.ranges with
        | nil => exact absurd hst (by simpa using h0)
        | cons a l =>
          cases l with
          | nil => rfl
          | cons b m => rw [hst] at hlen; simp at hlen
      · rw [if_neg hlen]
        cases hs : sortRanges st.ranges with
        | nil =>
          rw [hs] at hperm
          exact absurd hperm.symm.eq_nil (by simpa using h0)
        | cons c rest =>
          rw [hs] at hgood
          show mergeGo st.repl (st.repl.getD c) c rest = (c :: rest, st.repl)
          exact mergeGo_chain_id rest c st.repl ((hgood.imp fun h => h.2).chain')
    rw [hmerge]
    have hm1 : (sortRanges st.ranges).isEmpty = false := by
      cases hs : sortRanges st.ranges with
      | nil =>
        rw [hs] at hperm
        exact absurd hperm.symm.eq_nil (by simpa using h0)
      | cons c rest => rfl
    simp only [hm1, Bool.false_eq_true, if_false]
    rw [validate_eq_self fun x hx => hbounds x (hperm.mem_iff.mp hx)]
    exact ⟨hperm, rfl⟩

theorem save_load_roundtrip_witness :
    (∀ x ∈ (⟨[⟨⟨3, 0⟩, ⟨3, 5⟩⟩, ⟨⟨1, 0⟩, ⟨1, 4⟩⟩],
        [(⟨⟨1, 0⟩, ⟨1, 4⟩⟩, "A"), (⟨⟨3, 0⟩, ⟨3, 5⟩⟩, "B")]⟩ : DocState).ranges, x.wf) ∧
    List.Perm (saveThenLoadDoc 9 ⟨[⟨⟨3, 0⟩, ⟨3, 5⟩⟩, ⟨⟨1, 0⟩, ⟨1, 4⟩⟩],
        [(⟨⟨1, 0⟩, ⟨1, 4⟩⟩, "A"), (⟨⟨3, 0⟩, ⟨3, 5⟩⟩, "B")]⟩).ranges
      [⟨⟨3, 0⟩, ⟨3, 5⟩⟩, ⟨⟨1, 0⟩, ⟨1, 4⟩⟩] ∧
    (saveThenLoadDoc 9 ⟨[⟨⟨3, 0⟩, ⟨3, 5⟩⟩, ⟨⟨1, 0⟩, ⟨1, 4⟩⟩],
        [(⟨⟨1, 0⟩, ⟨1, 4⟩⟩, "A"), (⟨⟨3, 0⟩, ⟨3, 5⟩⟩, "B")]⟩).repl =
      [(⟨⟨1, 0⟩, ⟨1, 4⟩⟩, "A"), (⟨⟨3, 0⟩, ⟨3, 5⟩⟩, "B")] :=
  ⟨by decide,
    (save_load_roundtrip _ 9 (by decide) (by decide) (by decide)).1,
    (save_load_roundtrip _ 9 (by decide) (by decide) (by decide)).2⟩

/-- C6 counterexample: a document whose backing file's metadata cannot
be computed (`calculateFileMetadata` returns `null`, e.g. the file does
not exist on disk) is silently omitted from the written storage even
though its merged range list is non-empty. -/
theorem save_omits_record_without_metadata :
    saveMasksToFile (fun _ => none)
        [("file:///a.txt", ⟨[⟨⟨0, 0⟩, ⟨0, 5⟩⟩], []⟩)] = [] ∧
    (mergeOverlappingRanges (uniqueRanges [⟨⟨0, 0⟩, ⟨0, 5⟩⟩]) []).1 ≠ [] := by
  decide

/-- C6 (amended): for every document whose range list is non-empty and
whose file metadata IS computable, the written storage contains a record
under that document's key holding exactly the de-duplicated, merged
ranges. -/
theorem save_writes_merged_records
    (metadata : String → Option FileMetadata) (docs : List (String × DocState))
    (uri : String) (st : DocState)
    (hmem : (uri, st) ∈ docs) (hnd : (docs.map Prod.fst).Nodup)
    (hne : ¬ st.ranges.isEmpty)
    (hmeta : (metadata uri).isSome) :
    ∃ d, (saveMasksToFile metadata docs).lookup uri = some d ∧
      d.ranges = (mergeOverlappingRanges (uniqueRanges st.ranges) st.repl).1 := by
  induction docs with
  | nil => simp at hmem
  | cons hd rest ih =>
    obtain ⟨u0, st0⟩ := hd
    rcases List.mem_cons.mp hmem with hEq | hmem2
    · obtain ⟨rfl, rfl⟩ : uri = u0 ∧ st = st0 := by
        injection hEq with h1 h2
        exact ⟨h1, h2⟩
      simp only [saveMasksToFile]
      rw [if_neg hne]
      have hm : ¬ (mergeOverlappingRanges (uniqueRanges st.ranges) st.repl).1.isEmpty := by
        have hr1 : st.ranges ≠ [] := fun h => hne (by simp [h])
        have hr2 : uniqueRanges st.ranges ≠ [] := by
          cases hst : st.ranges with
          | nil => exact absurd hst hr1
          | cons a l => exact uniqueRanges_ne_nil
        have hr3 := merge_ne_nil st.repl hr2
        simpa using hr3
      rw [if_neg hm]
      obtain ⟨md, hmd⟩ := Option.isSome_iff_exists.mp hmeta
      rw [hmd]
      exact ⟨⟨(mergeOverlappingRanges (uniqueRanges st.ranges) st.repl).1, some md.filename,
        some md.fileSize, some md.lineCount, some md.md5Hash⟩, by simp [List.lookup], rfl⟩
    · have huri : uri ∈ rest.map Prod.fst :=
        List.mem_map.mpr ⟨(uri, st), hmem2, rfl⟩
      have hnd' : (rest.map Prod.fst).Nodup := by
        simpa using (List.nodup_cons.mp (by simpa using hnd)).2
      have hu0 : u0 ≠ uri := by
        intro hEq
        subst hEq
        exact (List.nodup_cons.mp (by simpa using hnd)).1 huri
      have hres := ih hmem2 hnd'
      obtain ⟨d, hd1, hd2⟩ := hres
      refine ⟨d, ?_, hd2⟩
      simp only [saveMasksToFile]
      by_cases h1 : st0.ranges.isEmpty
      · rw [if_pos h1]; exact hd1
      · rw [if_neg h1]
        by_cases h2 : (mergeOverlappingRanges (uniqueRanges st0.ranges) st0.repl).1.isEmpty
        · rw [if_pos h2]; exact hd1
        · rw [if_neg h2]
          cases hm0 : metadata u0 with
          | none => exact hd1
          | some md0 =>
            have hbe : (uri == u0) = false := by
              simp only [beq_eq_false_iff_ne, ne_eq]
              exact fun h => hu0 h.symm
            simp only [List.lookup, hbe]
            exact hd1

theorem save_writes_merged_records_witness :
    (¬ ((⟨[⟨⟨0, 0⟩, ⟨0, 5⟩⟩], []⟩ : DocState)).ranges.isEmpty) ∧
    ∃ d, (saveMasksToFile (fun _ => some ⟨"a.txt", 10, 2, "abc"⟩)
        [("file:///a.txt", ⟨[⟨⟨0, 0⟩, ⟨0, 5⟩⟩], []⟩)]).lookup "file:///a.txt" = some d ∧
      d.ranges = (mergeOverlappingRanges (uniqueRanges [⟨⟨0, 0⟩, ⟨0, 5⟩⟩]) []).1 :=
  ⟨by decide,
    save_writes_merged_records (fun _ => some ⟨"a.txt", 10, 2, "abc"⟩)
      [("file:///a.txt", ⟨[⟨⟨0, 0⟩, ⟨0, 5⟩⟩], []⟩)] "file:///a.txt"
      ⟨[⟨⟨0, 0⟩, ⟨0, 5⟩⟩], []⟩ (by simp) (by simp) (by decide) (by simp)⟩

theorem validate_mem_subset {maxLine : Nat} :
    ∀ {l : List Range} {repl : Repl} {x : Range},
      x ∈ (validateAndCleanMaskRanges maxLine l repl).1 → x ∈ l
  | [], repl, x, h => by simp [validateAndCleanMaskRanges] at h
  | r :: l, repl, x, h => by
    unfold validateAndCleanMaskRanges at h
    by_cases hr : r.start.line ≤ maxLine ∧ r.«end».line ≤ maxLine
    · rw [if_pos hr] at h
      rcases List.mem_cons.mp h with rfl | h2
      · exact List.mem_cons_self _ _
      · exact List.mem_cons_of_mem r (validate_mem_subset h2)
    · rw [if_neg hr] at h
      exact List.mem_cons_of_mem r (validate_mem_subset h)

/-- C7: every persisted range whose start or end line exceeds the live
document's last line index is dropped by load-time reconciliation; and
when such ranges were the record's only entries, the document is absent
from the reconstructed in-memory store and therefore from the storage
file written by the follow-up save — the record is pruned entirely. -/
theorem load_drops_out_of_bounds (maxLine : Nat) (stored : List Range) (repl : Repl)
    (uri : String) (metadata : String → Option FileMetadata) :
    (∀ x ∈ stored, (maxLine < x.start.line ∨ maxLine < x.«end».line) →
      x ∉ (validateAndCleanMaskRanges maxLine stored repl).1) ∧
    ((∀ x ∈ stored, maxLine < x.start.line ∨ maxLine < x.«end».line) →
      (loadDocEntry maxLine stored repl).1 = none ∧
      (saveMasksToFile metadata (reloadState uri maxLine stored repl)).lookup uri = none) := by
  constructor
  · intro x _ hex hmem
    have := validate_mem_bounds hmem
    omega
  · intro hall
    have hvalid : (validateAndCleanMaskRanges maxLine stored repl).1 = [] := by
      cases hv : (validateAndCleanMaskRanges maxLine stored repl).1 with
      | nil => rfl
      | cons a l =>
        have ha : a ∈ (validateAndCleanMaskRanges maxLine stored repl).1 := by
          rw [hv]; exact List.mem_cons_self _ _
        have hb := validate_mem_bounds ha
        have := hall a (validate_mem_subset ha)
        omega
    have hnone : (loadDocEntry maxLine stored repl).1 = none := by
      unfold loadDocEntry
      by_cases hs0 : stored.isEmpty
      · rw [if_pos hs0]
      · rw [if_neg hs0]
        simp [hvalid]
    refine ⟨hnone, ?_⟩
    have hempty : reloadState uri maxLine stored repl = [] := by
      unfold reloadState
      rcases hld : loadDocEntry maxLine stored repl with ⟨o, rp⟩
      rw [hld] at hnone
      simp only at hnone
      subst hnone
      rfl
    rw [hempty]
    rfl

theorem load_drops_out_of_bounds_witness :
    ((∀ x ∈ [(⟨⟨10, 0⟩, ⟨10, 5⟩⟩ : Range)], (4 < x.start.line ∨ 4 < x.«end».line) →
      x ∉ (validateAndCleanMaskRanges 4 [⟨⟨10, 0⟩, ⟨10, 5⟩⟩]
        [(⟨⟨10, 0⟩, ⟨10, 5⟩⟩, "S")]).1) ∧
    ((∀ x ∈ [(⟨⟨10, 0⟩, ⟨10, 5⟩⟩ : Range)], 4 < x.start.line ∨ 4 < x.«end».line) →
      (loadDocEntry 4 [⟨⟨10, 0⟩, ⟨10, 5⟩⟩] [(⟨⟨10, 0⟩, ⟨10, 5⟩⟩, "S")]).1 = none ∧
      (saveMasksToFile (fun _ => none)
        (reloadState "file:///a.txt" 4 [⟨⟨10, 0⟩, ⟨10, 5⟩⟩]
          [(⟨⟨10, 0⟩, ⟨10, 5⟩⟩, "S")])).lookup "file:///a.txt" = none)) ∧
    (∀ x ∈ [(⟨⟨10, 0⟩, ⟨10, 5⟩⟩ : Range)], 4 < x.start.line ∨ 4 < x.«end».line) :=
  ⟨load_drops_out_of_bounds 4 [⟨⟨10, 0⟩, ⟨10, 5⟩⟩] [(⟨⟨10, 0⟩, ⟨10, 5⟩⟩, "S")]
    "file:///a.txt" (fun _ => none), by decide⟩

/-- C8: the identity resolver returns the live key on an exact storage
hit, and otherwise scans storage in order for the first record whose
recorded size, line count and digest all equal the live document's
freshly computed fingerprint, skipping records without fingerprint
metadata, returning `none` when nothing matches — stated as agreement
with `specResolve`, the resolver written from the specification's words.
The hypotheses hold for every fingerprint `calculateFileMetadata`
produces: a `split`-based line count is at least 1 and a hex digest is
never the empty string (the source skips falsy `lineCount`/`md5Hash`
fields, which under these hypotheses can never equal the live values). -/
theorem find?_congr_ranges {α : Type} {p q : α → Bool} :
    ∀ {l : List α}, (∀ a ∈ l, p a = q a) → l.find? p = l.find? q
  | [], _ => rfl
  | a :: l, h => by
    rw [List.find?_cons, List.find?_cons, h a (by simp),
      find?_congr_ranges fun x hx => h x (List.mem_cons_of_mem a hx)]

theorem resolver_matches_spec (uri : String) (m : FileMetadata)
    (storage : List (String × MaskData))
    (h1 : m.lineCount ≠ 0) (h2 : m.md5Hash ≠ "") :
    findMatchingFileInStorage uri (some m) storage = specResolve uri m storage := by
  unfold findMatchingFileInStorage specResolve
  by_cases hk : (storage.lookup uri).isSome
  · rw [if_pos hk, if_pos hk]
  · rw [if_neg hk, if_neg hk]
    dsimp only
    congr 1
    apply find?_congr_ranges
    intro p _
    by_cases f1 : p.2.fileSize = some m.fileSize <;>
      by_cases f2 : p.2.lineCount = some m.lineCount <;>
      by_cases f3 : p.2.md5Hash = some m.md5Hash <;>
      simp [f1, f2, f3, h1, h2]

theorem resolver_matches_spec_witness :
    ((⟨"new.txt", 10, 2, "abc"⟩ : FileMetadata).lineCount ≠ 0) ∧
    ((⟨"new.txt", 10, 2, "abc"⟩ : FileMetadata).md5Hash ≠ "") ∧
    findMatchingFileInStorage "file:///new.txt" (some ⟨"new.txt", 10, 2, "abc"⟩)
        [("file:///old.txt",
          (⟨[⟨⟨0, 0⟩, ⟨0, 3⟩⟩], some "old.txt", some 10, some 2, some "abc"⟩ : MaskData))] =
      specResolve "file:///new.txt" ⟨"new.txt", 10, 2, "abc"⟩
        [("file:///old.txt",
          (⟨[⟨⟨0, 0⟩, ⟨0, 3⟩⟩], some "old.txt", some 10, some 2, some "abc"⟩ : MaskData))] ∧
    findMatchingFileInStorage "file:///new.txt" (some ⟨"new.txt", 10, 2, "abc"⟩)
        [("file:///old.txt",
          (⟨[⟨⟨0, 0⟩, ⟨0, 3⟩⟩], some "old.txt", some 10, some 2, some "abc"⟩ : MaskData))] =
      some "file:///old.txt" :=
  ⟨by decide, by decide,
    resolver_matches_spec "file:///new.txt" ⟨"new.txt", 10, 2, "abc"⟩ _
      (by decide) (by decide), by decide⟩

theorem mark_single (hasMeta : Bool) (a : Range) (ta : String) (hna : ¬ a.isEmpty) :
    applyOp hasMeta emptyDoc (.mark a ta) = ⟨[a], [(a, ta)]⟩ := by
  simp only [applyOp, markMasked]
  rw [if_neg hna]
  cases hasMeta <;> rfl

/-- C9: inserting range `a` with text `ta`, then the adjacent-or-
overlapping, lower-sorted-later range `b` with a different text `tb`,
yields exactly one merged entry spanning from `a.start` to the later of
the two ends, and the merged entry keeps the EARLIER entry's text `ta`
(the source's differing-texts branch assigns the template literal of the
current text).  The non-emptiness side conditions reflect the mark
guard; the texts are non-empty because the mark handler rejects a falsy
replacement text.  The result holds whether or not the file metadata is
computable at either commit (`m1`, `m2`): the mark handler merges
in-memory before its save call, so the save pass's guarded write-back
is an identity either way. -/
theorem merge_tiebreak_earlier_text (m1 m2 : Bool) (a b : Range) (ta tb : String)
    (hna : ¬ a.isEmpty) (hnb : ¬ b.isEmpty) (hne : a ≠ b)
    (hle : rangeLe a b) (hadj : overlapsOrAdjacent a b)
    (hta : ta ≠ "") (htb : tb ≠ "") (htext : ta ≠ tb) :
    (applyOp m2 (applyOp m1 emptyDoc (.mark a ta)) (.mark b tb)).ranges =
      [⟨a.start, if a.«end».isAfter b.«end» then a.«end» else b.«end»⟩] ∧
    (applyOp m2 (applyOp m1 emptyDoc (.mark a ta)) (.mark b tb)).repl.getD
      ⟨a.start, if a.«end».isAfter b.«end» then a.«end» else b.«end»⟩ = ta := by
  rw [mark_single m1 a ta hna]
  have hne' : b ≠ a := fun h => hne h.symm
  have hset : Repl.set [(a, ta)] b tb = [(b, tb), (a, ta)] := by
    simp [Repl.set, Repl.delete, hne]
  have hga : Repl.getD [(b, tb), (a, ta)] a = ta := by
    simp [Repl.getD, Repl.get, List.find?, hne', orDefault, hta]
  have hgb : Repl.getD [(b, tb), (a, ta)] b = tb := by
    simp [Repl.getD, Repl.get, List.find?, orDefault, htb]
  have hdel : Repl.delete (Repl.delete [(b, tb), (a, ta)] a) b = [] := by
    simp [Repl.delete, hne, hne']
  have hsort : sortRanges [a, b] = [a, b] := by
    simp [sortRanges, List.insertionSort, List.orderedInsert, hle]
  have hmerge : mergeOverlappingRanges [a, b] [(b, tb), (a, ta)] =
      ([⟨a.start, if a.«end».isAfter b.«end» then a.«end» else b.«end»⟩],
        [(⟨a.start, if a.«end».isAfter b.«end» then a.«end» else b.«end»⟩, ta)]) := by
    unfold mergeOverlappingRanges
    rw [if_neg (by simp)]
    simp only [hsort]
    simp only [mergeGo]
    rw [if_pos hadj, hga, hgb, hdel]
    simp only [ne_eq, ite_self, Repl.set, Repl.delete, List.filter_nil]
  simp only [applyOp, markMasked]
  rw [if_neg hnb]
  have hmm : markMem ⟨[a], [(a, ta)]⟩ b tb =
      ⟨[⟨a.start, if a.«end».isAfter b.«end» then a.«end» else b.«end»⟩],
        [(⟨a.start, if a.«end».isAfter b.«end» then a.«end» else b.«end»⟩, ta)]⟩ := by
    simp only [markMem]
    rw [hset, List.singleton_append, hmerge]
  rw [hmm]
  have hsave : saveNormalize m2
      ⟨[⟨a.start, if a.«end».isAfter b.«end» then a.«end» else b.«end»⟩],
        [(⟨a.start, if a.«end».isAfter b.«end» then a.«end» else b.«end»⟩, ta)]⟩ =
      ⟨[⟨a.start, if a.«end».isAfter b.«end» then a.«end» else b.«end»⟩],
        [(⟨a.start, if a.«end».isAfter b.«end» then a.«end» else b.«end»⟩, ta)]⟩ := by
    cases m2 <;> (unfold saveNormalize; rw [if_neg (by simp)]; rfl)
  rw [hsave]
  exact ⟨rfl, by simp [Repl.getD, Repl.get, List.find?, orDefault, hta]⟩

theorem merge_tiebreak_earlier_text_witness :
    (¬ (⟨⟨0, 0⟩, ⟨0, 5⟩⟩ : Range).isEmpty) ∧ ("X" : String) ≠ "Y" ∧
    (applyOp true (applyOp true emptyDoc (.mark ⟨⟨0, 0⟩, ⟨0, 5⟩⟩ "X"))
        (.mark ⟨⟨0, 5⟩, ⟨0, 10⟩⟩ "Y")).ranges =
      [⟨(⟨0, 0⟩ : Position), if (⟨0, 5⟩ : Position).isAfter ⟨0, 10⟩ then (⟨0, 5⟩ : Position)
        else ⟨0, 10⟩⟩] ∧
    (applyOp true (applyOp true emptyDoc (.mark ⟨⟨0, 0⟩, ⟨0, 5⟩⟩ "X"))
        (.mark ⟨⟨0, 5⟩, ⟨0, 10⟩⟩ "Y")).repl.getD
      ⟨(⟨0, 0⟩ : Position), if (⟨0, 5⟩ : Position).isAfter ⟨0, 10⟩ then (⟨0, 5⟩ : Position)
        else ⟨0, 10⟩⟩ = "X" :=
  ⟨by decide, by decide,
    (merge_tiebreak_earlier_text true true ⟨⟨0, 0⟩, ⟨0, 5⟩⟩ ⟨⟨0, 5⟩, ⟨0, 10⟩⟩ "X" "Y"
      (by decide) (by decide) (by decide) (by decide) (by decide) (by decide) (by decide)
      (by decide)).1,
    (merge_tiebreak_earlier_text true true ⟨⟨0, 0⟩, ⟨0, 5⟩⟩ ⟨⟨0, 5⟩, ⟨0, 10⟩⟩ "X" "Y"
      (by decide) (by decide) (by decide) (by decide) (by decide) (by decide) (by decide)
      (by decide)).2⟩

/-- C10: re-marking the exact same range `R` stores no duplicate entry
and overwrites the replacement text with the later one: the second mark
overwrites the shared composite key before the merge pass, and the merge
pass folds the coordinate-equal duplicate away, so after
`insert(R, tx); insert(R, ty)` the store holds the single entry `R`
carrying `ty`, whatever the metadata environment (`m1`, `m2`) of the
two commits (mark-only sequences merge in-handler, so the guarded
write-back is an identity either way). -/
theorem remark_same_range_updates_text (m1 m2 : Bool) (R : Range) (tx ty : String)
    (hwf : R.wf) (hn : ¬ R.isEmpty) (hty : ty ≠ "") :
    applyOp m2 (applyOp m1 emptyDoc (.mark R tx)) (.mark R ty) = ⟨[R], [(R, ty)]⟩ := by
  rw [mark_single m1 R tx hn]
  simp only [applyOp, markMasked]
  rw [if_neg hn]
  have hset : Repl.set [(R, tx)] R ty = [(R, ty)] := by
    simp [Repl.set, Repl.delete]
  have hRR : rangeLe R R := posLe_refl R.start
  have hsort : sortRanges [R, R] = [R, R] := by
    simp [sortRanges, List.insertionSort, List.orderedInsert, hRR]
  have hg : Repl.getD [(R, ty)] R = ty := by
    simp [Repl.getD, Repl.get, List.find?, orDefault, hty]
  have hadj : overlapsOrAdjacent R R := adjacent_self hwf
  have hirr : ¬ R.«end».isAfter R.«end» := by unfold Position.isAfter; omega
  have hdel : Repl.delete (Repl.delete [(R, ty)] R) R = [] := by
    simp [Repl.delete]
  have hmerge : mergeOverlappingRanges [R, R] [(R, ty)] = ([R], [(R, ty)]) := by
    unfold mergeOverlappingRanges
    rw [if_neg (by simp)]
    simp only [hsort]
    simp only [mergeGo]
    rw [if_pos hadj, if_neg hirr, hg, hdel]
    simp only [ne_eq, ite_self, Repl.set, Repl.delete, List.filter_nil]
  have hmm : markMem ⟨[R], [(R, tx)]⟩ R ty = ⟨[R], [(R, ty)]⟩ := by
    simp only [markMem]
    rw [hset, List.singleton_append, hmerge]
  rw [hmm]
  cases m2 <;> (unfold saveNormalize; rw [if_neg (by simp)]; rfl)

theorem remark_same_range_updates_text_witness :
    ((⟨⟨0, 3⟩, ⟨1, 2⟩⟩ : Range).wf) ∧
    applyOp true (applyOp true emptyDoc (.mark ⟨⟨0, 3⟩, ⟨1, 2⟩⟩ "X"))
        (.mark ⟨⟨0, 3⟩, ⟨1, 2⟩⟩ "Y") =
      ⟨[⟨⟨0, 3⟩, ⟨1, 2⟩⟩], [(⟨⟨0, 3⟩, ⟨1, 2⟩⟩, "Y")]⟩ :=
  ⟨by decide,
    remark_same_range_updates_text true true ⟨⟨0, 3⟩, ⟨1, 2⟩⟩ "X" "Y" (by decide) (by decide)
      (by decide)⟩

end Mask
